import Mathlib

/-!
# Verification of the duplicate-package-checker webpack plugin core

Shallow embedding of `src/index.js` of
`kingback/duplicate-package-checker-webpack-plugin`, together with theorems
settling the specification claims.

External collaborators (the file system behind `find-root`/`require`, the
`semver` library, `chalk` colorization) are modelled explicitly where the
code calls into them:
  * the package resolution `getClosestPackage` is modelled over an abstract
    file system (`FS`), and the aggregation pass is parametric in the
    resulting resolver (`Gcp`);
  * `semver.major` is modelled by `semverMajor` (a parser of `X.Y.Z`
    versions returning `none` where the library throws);
  * `chalk` combinators are modelled as the ANSI-escape wrappers they
    produce.
A JavaScript exception escaping the emit handler is modelled by
`Except.error`; a completed handler returns `Except.ok` with the diagnostic
sink contents and the number of `callback()` invocations.
-/

/-- A parsed `package.json`: its `name` and `version` fields.  An absent or
empty `name` is represented by `""` (JavaScript falsiness of `pkg.name`). -/
structure Pkg where
  name : String
  version : String
deriving DecidableEq, Repr

/-- Result of `getClosestPackage`: the parsed package and its root path
(source: `{ package: pkg, path: root }`). -/
structure ClosestPackage where
  pkg : Pkg
  path : String
deriving DecidableEq, Repr

/-- A webpack module descriptor as used by the plugin: an optional
`resource` file path and an optional `issuer` back-reference.  As an
inductive type this represents exactly the finite acyclic issuer chains. -/
inductive WModule where
  | mk (resource : Option String) (issuer : Option WModule)

/-- `module.resource`. -/
def WModule.resource : WModule → Option String
  | WModule.mk r _ => r

/-- `module.issuer`. -/
def WModule.issuer : WModule → Option WModule
  | WModule.mk _ i => i

/-- The package resolver `getClosestPackage`, abstracted over the ambient
file system: maps a resource path to the closest package, or `null`. -/
abbrev Gcp := String → Option ClosestPackage

/-! ## Path normalizer (`cleanPath`, source lines 19–21) -/

/-- The characters of the reserved directory name `node_modules`. -/
def nmChars : List Char := "node_modules".data

/-- A path separator as matched by the regex character class `[\/\\]`. -/
def isSep (c : Char) : Bool := c = '/' || c = '\\'

/-- Does the list start with a separator? -/
def isSepAt (l : List Char) : Bool :=
  match l with
  | [] => false
  | c :: _ => isSep c

/-- Does `l` start with a match of the regex `[\/\\]node_modules[\/\\]`
(a separator, the 12 characters of `node_modules`, a separator)? -/
def headMatch (l : List Char) : Bool :=
  match l with
  | [] => false
  | c :: rest => isSep c && rest.take 12 = nmChars && isSepAt (rest.drop 12)

/-- Fuel-indexed worker for `cleanChars`: the fuel only bounds the
recursion depth (any fuel at least the list length gives the same result,
see `cleanCharsGo_congr`). -/
def cleanCharsGo : Nat → List Char → List Char
  | _, [] => []
  | 0, l => l
  | fuel + 1, c :: rest =>
    if headMatch (c :: rest) then
      '/' :: '~' :: '/' :: cleanCharsGo fuel (rest.drop 13)
    else
      c :: cleanCharsGo fuel rest

/-- `String.prototype.split(/[\/\\]node_modules[\/\\]/).join("/~/")` on the
character list: each non-overlapping leftmost match of the separator regex
(14 characters) is replaced by the three characters `/~/`. -/
def cleanChars (l : List Char) : List Char :=
  cleanCharsGo l.length l

/-- `cleanPath` (source lines 19–21): rewrites every `node_modules` path
segment into the `/~/` marker. -/
def cleanPath (p : String) : String := String.mk (cleanChars p.data)

/-! ## Issuer chain tracer (`getIssuer` / `getIssuerPath`, lines 51–71) -/

/-- `getIssuer(issuer, ret)` (source lines 51–66): while the walked node has
a `resource`, resolve it to a package, push `name@version` onto the
accumulator if not already present, and continue with its `issuer`. -/
def getIssuer (gcp : Gcp) : WModule → List String → List String
  | WModule.mk res iss, ret =>
    match res with
    | none => ret
    | some resource =>
      let ret1 :=
        match gcp resource with
        | none => ret
        | some cp =>
          let p := cp.pkg.name ++ "@" ++ cp.pkg.version
          if p ∈ ret then ret else ret ++ [p]
      match iss with
      | none => ret1
      | some m => getIssuer gcp m ret1

/-- `getIssuerPath(issuers)` (source lines 68–71): pop the last accumulated
entry, reverse the remainder and join with `" -> "`, prefixed by `"~/"`. -/
def getIssuerPath (issuers : List String) : String :=
  "~/" ++ String.intercalate " -> " issuers.dropLast.reverse

/-! ## Module aggregator (emit handler, lines 84–147) -/

/-- One `Instance` in the package-instance map (source line 132):
`{ version, path, issuer, issuerPaths }`. -/
structure Entry where
  version : String
  path : String
  issuer : Option String
  issuerPaths : List String
deriving DecidableEq, Repr

/-- `cleanPathRelativeToContext` (source lines 87–96): clean the path, then
make it relative to the compilation context when it starts with it. -/
def cleanPathRelativeToContext (context : String) (modulePath : String) : String :=
  let cleanedPath := cleanPath modulePath
  if context.data.isPrefixOf cleanedPath.data then
    "." ++ String.mk (cleanedPath.data.drop context.data.length)
  else
    cleanedPath

/-- Association-list lookup modelling JavaScript object property access
`modules[name]` (keys are kept unique by `updateMap`). -/
def alookup (name : String) : List (String × List Entry) → Option (List Entry)
  | [] => none
  | (k, v) :: rest => if k = name then some v else alookup name rest

/-- Update the property `name` of the object, inserting it (at the end, as
JavaScript property-creation order does) when absent. -/
def updateMap (name : String) (f : List Entry → List Entry) :
    List (String × List Entry) → List (String × List Entry)
  | [] => [(name, f [])]
  | (k, v) :: rest =>
    if k = name then (k, f v) :: rest else (k, v) :: updateMap name f rest

/-- Add a rendered issuer path to an entry's `issuerPaths` unless already
present (source lines 144–146); `none` adds nothing. -/
def addIssuerPath (ip : Option String) (e : Entry) : Entry :=
  match ip with
  | none => e
  | some p =>
    if p ∈ e.issuerPaths then e else { e with issuerPaths := e.issuerPaths ++ [p] }

/-- `_.find` the first entry with this `version` and mutate it via
`addIssuerPath`; if absent, push a fresh entry (source lines 127–146). -/
def insertModuleEntry (version modulePath : String) (missuer ip : Option String) :
    List Entry → List Entry
  | [] => [addIssuerPath ip { version := version, path := modulePath,
                              issuer := missuer, issuerPaths := [] }]
  | e :: rest =>
    if e.version = version then addIssuerPath ip e :: rest
    else e :: insertModuleEntry version modulePath missuer ip rest

/-- The rendered issuer path of a module, when it has an issuer with a
resource (source lines 122–125). -/
def issuerPathOf (gcp : Gcp) (m : WModule) : Option String :=
  match m.issuer with
  | none => none
  | some iss =>
    match iss.resource with
    | none => none
    | some _ => some (getIssuerPath (getIssuer gcp m []))

/-- The normalized immediate-issuer path recorded on a freshly created
entry (source lines 134–139). -/
def issuerResourceOf (context : String) (m : WModule) : Option String :=
  match m.issuer with
  | none => none
  | some iss =>
    match iss.resource with
    | none => none
    | some r => some (cleanPathRelativeToContext context r)

/-- The body of the `compilation.modules.forEach` loop (source lines
98–147) acting on the package-instance map. -/
def processModule (gcp : Gcp) (context : String)
    (modules : List (String × List Entry)) (m : WModule) :
    List (String × List Entry) :=
  match m.resource with
  | none => modules
  | some resource =>
    match gcp resource with
    | none => modules
    | some closestPackage =>
      let pkg := closestPackage.pkg
      let modulePath := cleanPathRelativeToContext context closestPackage.path
      let version := pkg.version
      let ip := issuerPathOf gcp m
      let missuer := issuerResourceOf context m
      updateMap pkg.name (insertModuleEntry version modulePath missuer ip) modules

/-- The whole aggregation pass over `compilation.modules`. -/
def aggregateModules (gcp : Gcp) (context : String) (mods : List WModule) :
    List (String × List Entry) :=
  mods.foldl (processModule gcp context) []

/-! ## The `semver` library's `major` (modelled) -/

/-- A semver numeric identifier: nonempty digits with no leading zero. -/
def parseNumericId (s : List Char) : Option Nat :=
  if s = [] then none
  else if ¬ s.all (·.isDigit) then none
  else if 1 < s.length ∧ s.head? = some '0' then none
  else some (s.foldl (fun n c => n * 10 + (c.toNat - 48)) 0)

/-- Allowed characters of a prerelease / build-metadata suffix. -/
def suffixOk (s : List Char) : Bool :=
  s ≠ [] && s.all (fun c => c.isAlphanum || c = '-' || c = '.' || c = '+')

/-- Models the `semver` library's `major(version)`: parses
`[v]X.Y.Z[-pre][+build]` and returns the integer major component `X`, or
`none` where the library throws `Invalid Version`. -/
def semverMajor (v : String) : Option Nat :=
  let cs := match v.data with
    | 'v' :: rest => rest
    | cs => cs
  let majorPart := cs.takeWhile (· ≠ '.')
  match cs.dropWhile (· ≠ '.') with
  | '.' :: rest1 =>
    let minorPart := rest1.takeWhile (· ≠ '.')
    match rest1.dropWhile (· ≠ '.') with
    | '.' :: rest2 =>
      let patchPart := rest2.takeWhile (fun c => c ≠ '-' && c ≠ '+')
      let suffix := rest2.dropWhile (fun c => c ≠ '-' && c ≠ '+')
      match parseNumericId majorPart, parseNumericId minorPart,
            parseNumericId patchPart with
      | some mj, some _, some _ =>
        match suffix with
        | [] => some mj
        | '-' :: r => if suffixOk r then some mj else none
        | '+' :: r => if suffixOk r then some mj else none
        | _ => none
      | _, _, _ => none
    | _ => none
  | _ => none

/-! ## Duplicate classifier (source lines 149–188) -/

/-- Append an entry to the group of key `k` (lodash `_.groupBy` keeps keys
in first-occurrence order and appends within a group). -/
def groupInsert (k : Nat) (e : Entry) :
    List (Nat × List Entry) → List (Nat × List Entry)
  | [] => [(k, [e])]
  | (k', g) :: rest =>
    if k' = k then (k', g ++ [e]) :: rest else (k', g) :: groupInsert k e rest

/-- `_.groupBy(instances, i => semver.major(i.version))` (source lines
161–163); an unparsable version models the `semver` throw. -/
def groupByMajorAux (acc : List (Nat × List Entry)) :
    List Entry → Except String (List (Nat × List Entry))
  | [] => Except.ok acc
  | e :: rest =>
    match semverMajor e.version with
    | none => Except.error ("Invalid Version: " ++ e.version)
    | some k => groupByMajorAux (groupInsert k e acc) rest

/-- Group a package's instances by integer major version. -/
def groupByMajor (l : List Entry) : Except String (List (Nat × List Entry)) :=
  groupByMajorAux [] l

/-- The relaxed-mode filter (source lines 159–174): the concatenation, in
group order, of every major-version group with more than one member. -/
def relaxedFiltered (groups : List (Nat × List Entry)) : List Entry :=
  (groups.filter (fun g => 1 < g.2.length)).foldl (fun acc g => acc ++ g.2) []

/-- The body of the classification loop for one package name (source lines
151–188).  `Except.ok none` models `continue` (no diagnostic for this
name); `Except.ok (some filtered)` models `duplicates[name] = filtered`;
`Except.error` models a `semver` throw escaping the handler. -/
def classifyName (strict : Bool) (exclude : Option (String → Entry → Bool))
    (name : String) (instances : List Entry) :
    Except String (Option (List Entry)) :=
  if instances.length ≤ 1 then Except.ok none
  else
    let step : Except String (Option (List Entry)) :=
      if strict then Except.ok (some instances)
      else
        match groupByMajor instances with
        | Except.error e => Except.error e
        | Except.ok groups =>
          let filtered := relaxedFiltered groups
          if filtered.length ≤ 1 then Except.ok none
          else Except.ok (some filtered)
    match step with
    | Except.error e => Except.error e
    | Except.ok none => Except.ok none
    | Except.ok (some filtered) =>
      match exclude with
      | none => Except.ok (some filtered)
      | some ex =>
        let filtered := filtered.filter (fun inst => ¬ ex name inst)
        if filtered.length ≤ 1 then Except.ok none
        else Except.ok (some filtered)

/-- The `for (let name in modules)` classification loop, producing the
`duplicates` object in iteration order. -/
def classify (strict : Bool) (exclude : Option (String → Entry → Bool)) :
    List (String × List Entry) → Except String (List (String × List Entry))
  | [] => Except.ok []
  | (name, instances) :: rest =>
    match classifyName strict exclude name instances with
    | Except.error e => Except.error e
    | Except.ok none => classify strict exclude rest
    | Except.ok (some filtered) =>
      match classify strict exclude rest with
      | Except.error e => Except.error e
      | Except.ok dups => Except.ok ((name, filtered) :: dups)

/-! ## Report formatter (source lines 190–228) -/

/-- Lexicographic string order decided character by character (the order
JavaScript's `<` and default `sort()` use); replaces the iterator-based
decision procedure so that reports evaluate on concrete inputs. -/
instance decLEString : DecidableRel (α := String) (· ≤ ·) := fun a b =>
  decidable_of_iff (a.toList ≤ b.toList) String.le_iff_toList_le.symm

/-- `duplicates[name].sort((a, b) => (a.version < b.version ? -1 : 1))`:
with the aggregator's pairwise-distinct versions this is the ascending
lexicographic order on the version strings. -/
def sortInstances (l : List Entry) : List Entry :=
  l.insertionSort (fun a b => a.version ≤ b.version)

/-- `Object.keys(duplicates).sort()` followed by the per-name instance
sort: the duplicates in final presentation order. -/
def sortedDuplicates (duplicates : List (String × List Entry)) :
    List (String × List Entry) :=
  ((duplicates.map Prod.fst).insertionSort (· ≤ ·)).map
    (fun name => (name, sortInstances ((alookup name duplicates).getD [])))

/-- The ANSI escape character emitted by `chalk`. -/
def escChar : String := String.mk ['\x1b']

/-- `chalk.reset(s)`. -/
def chalkReset (s : String) : String :=
  escChar ++ "[0m" ++ s ++ escChar ++ "[0m"

/-- `chalk.green.bold(s)`. -/
def chalkGreenBold (s : String) : String :=
  escChar ++ "[32m" ++ escChar ++ "[1m" ++ s ++ escChar ++ "[22m" ++ escChar ++ "[39m"

/-- `chalk.white(s)`. -/
def chalkWhite (s : String) : String :=
  escChar ++ "[37m" ++ s ++ escChar ++ "[39m"

/-- `chalk.white.bold(s)`. -/
def chalkWhiteBold (s : String) : String :=
  escChar ++ "[37m" ++ escChar ++ "[1m" ++ s ++ escChar ++ "[22m" ++ escChar ++ "[39m"

/-- The per-instance line (source lines 210–218). -/
def formatInstance (verbose : Bool) (e : Entry) : String :=
  chalkGreenBold e.version ++ " " ++
    chalkWhiteBold (String.intercalate "\n" e.issuerPaths) ++
    (match e.issuer with
     | some iss => if verbose then " from " ++ chalkWhiteBold iss else ""
     | none => "")

/-- The fixed explanatory footer appended to the last diagnostic. -/
def helpFooter : String :=
  "\n" ++ chalkWhiteBold "Check how you can resolve duplicate packages: " ++
    "\nhttps://github.com/kingback/duplicate-package-checker-webpack-plugin#resolving-duplicate-packages-in-your-bundle\n"

/-- One diagnostic message (source lines 204–226). -/
def formatDiag (verbose : Bool) (withHelp : Bool) (name : String)
    (instances : List Entry) : String :=
  name ++ "\n" ++ chalkReset "  Multiple versions of " ++ chalkGreenBold name ++
    chalkWhite " found:\n" ++
    "    " ++ String.intercalate "\n    " (instances.map (formatInstance verbose)) ++
    "\n" ++ (if withHelp then helpFooter else "")

/-- All diagnostic messages, in presentation order; the help footer goes on
the last one only (`showHelp && ++i === duplicateCount`). -/
def formatDiags (verbose showHelp : Bool)
    (sorted : List (String × List Entry)) : List String :=
  sorted.enum.map (fun p =>
    formatDiag verbose (showHelp && p.1 + 1 = sorted.length) p.2.1 p.2.2)

/-! ## The emit-hook handler (source lines 80–231) -/

/-- Plugin options with their defaults (source lines 7–13).  The `exclude`
predicate receives the instance augmented with its package `name`
(`Object.assign({ name }, instance)`), modelled as the pair of the name and
the entry. -/
structure Options where
  verbose : Bool := false
  showHelp : Bool := true
  emitError : Bool := false
  exclude : Option (String → Entry → Bool) := none
  strict : Bool := true

/-- The observable outcome of one completed emit pass: the contents pushed
to `compilation.errors` and `compilation.warnings`, and how many times
`callback` was invoked. -/
structure Output where
  errors : List String
  warnings : List String
  callbackCalls : Nat
deriving DecidableEq, Repr

/-- The classified-and-sorted duplicates of one pass (the data the
formatter walks), or the error that escapes the handler. -/
def emitStructured (opts : Options) (gcp : Gcp) (context : String)
    (mods : List WModule) : Except String (List (String × List Entry)) :=
  match classify opts.strict opts.exclude (aggregateModules gcp context mods) with
  | Except.error e => Except.error e
  | Except.ok duplicates => Except.ok (sortedDuplicates duplicates)

/-- The whole emit-hook handler (source lines 80–231): aggregate, classify,
format, push to the sink selected by `emitError`, invoke `callback()`. -/
def emitPass (opts : Options) (gcp : Gcp) (context : String)
    (mods : List WModule) : Except String Output :=
  match emitStructured opts gcp context mods with
  | Except.error e => Except.error e
  | Except.ok sorted =>
    let msgs := if sorted.length = 0 then [] else
      formatDiags opts.verbose opts.showHelp sorted
    Except.ok
      { errors := if opts.emitError then msgs else []
        warnings := if opts.emitError then [] else msgs
        callbackCalls := 1 }

/-! ## C1: rendering of a three-level issuer chain -/

/-- A concrete resolver for the chain scenario: three distinct packages. -/
def gcpChain : Gcp := fun r =>
  if r = "a.js" then some ⟨⟨"a", "1.0.0"⟩, "/pa"⟩
  else if r = "b.js" then some ⟨⟨"b", "2.0.0"⟩, "/pb"⟩
  else if r = "c.js" then some ⟨⟨"c", "3.0.0"⟩, "/pc"⟩
  else none

/-- Module `A` (the root of the import chain). -/
def wmA : WModule := WModule.mk (some "a.js") none

/-- Module `B`, issued by `A`. -/
def wmB : WModule := WModule.mk (some "b.js") (some wmA)

/-- Module `C` (the module under test), issued by `B`. -/
def wmC : WModule := WModule.mk (some "c.js") (some wmB)

/-- No position of `l` starts a match of the separator regex. -/
def noMatch : List Char → Bool
  | [] => true
  | c :: rest => !headMatch (c :: rest) && noMatch rest

/-- Does `l` start with two adjacent `node_modules` segments
(`sep node_modules sep node_modules sep`, 27 characters)? -/
def headAdj : List Char → Bool
  | [] => false
  | c :: rest =>
    headMatch (c :: rest) && decide ((rest.drop 13).take 12 = nmChars) &&
      isSepAt ((rest.drop 13).drop 12)

/-- No position of `l` starts two adjacent `node_modules` segments. -/
def noAdj : List Char → Bool
  | [] => true
  | c :: rest => !headAdj (c :: rest) && noAdj rest

/-- A sample instance `a@1.0.0`. -/
def eA1 : Entry := { version := "1.0.0", path := "./p1", issuer := none, issuerPaths := [] }

/-- A sample instance `a@2.0.0`. -/
def eA2 : Entry := { version := "2.0.0", path := "./p2", issuer := none, issuerPaths := [] }

/-- An exclusion predicate rejecting instances at version `2.0.0`. -/
def exV2 : String → Entry → Bool := fun _ inst => inst.version == "2.0.0"

/-! ## C2: relaxed-mode major-version grouping -/

/-- Lookup of a major-version group. -/
def glookup (k : Nat) : List (Nat × List Entry) → Option (List Entry)
  | [] => none
  | (k', g) :: rest => if k' = k then some g else glookup k rest

/-- Sample instance `b@1.0.0`. -/
def eB1 : Entry := { version := "1.0.0", path := "/p1", issuer := none, issuerPaths := [] }

/-- Sample instance `b@1.5.0`. -/
def eB15 : Entry := { version := "1.5.0", path := "/p2", issuer := none, issuerPaths := [] }

/-- Sample instance `b@2.0.0`. -/
def eB2 : Entry := { version := "2.0.0", path := "/p3", issuer := none, issuerPaths := [] }

/-! ## C7: the package locator over an abstract file system

`getClosestPackage` (source lines 24–48) calls `find-root` and `require`,
i.e. the file system.  The file system is modelled as a map from a
directory path (a segment list from the root; the parent directory is
`dropLast`) to: `none` (no `package.json` here), `some none`
(`package.json` present but `require` throws — unparsable), or
`some (some pkg)` (parsed metadata). -/

/-- An abstract file system for package-metadata lookups. -/
abbrev FS := List String → Option (Option Pkg)

/-- Result of the locator over the abstract file system: the parsed
package and its root directory. -/
structure ClosestPackageFS where
  pkg : Pkg
  path : List String
deriving DecidableEq, Repr

/-- `findRoot(start)` of the `find-root` library: the nearest ancestor
directory (including `p` itself) containing `package.json`; the library
throws when none exists (caught by `getClosestPackage`), modelled `none`. -/
def findRoot (fs : FS) (p : List String) : Option (List String) :=
  match p with
  | [] => if (fs []).isSome then some [] else none
  | s :: t =>
    if (fs (s :: t)).isSome then some (s :: t)
    else findRoot fs ((s :: t).dropLast)
termination_by p.length
decreasing_by
  simp only [List.length_dropLast, List.length_cons]
  omega

/-- Fuel-indexed worker for `getClosestPackage`.  The fuel only bounds the
anonymous-metadata retry recursion: in JavaScript, a `package.json` at the
file-system root with no `name` makes `getClosestPackage(resolve(root,
".."))` recurse on the same path until the engine's stack-overflow
`RangeError` is caught by the surrounding `try`, returning `null`; running
out of fuel models that `null`. -/
def getClosestPackageGo (fs : FS) : Nat → List String → Option ClosestPackageFS
  | 0, _ => none
  | fuel + 1, p =>
    match findRoot fs p with
    | none => none
    | some root =>
      match fs root with
      | none => none
      | some none => none
      | some (some pkg) =>
        if pkg.name = "" then getClosestPackageGo fs fuel root.dropLast
        else some { pkg := pkg, path := root }

/-- `getClosestPackage(modulePath)` (source lines 24–48): find the nearest
package root, parse its metadata, and retry one directory above the root
when the metadata has no (non-empty) `name`; any failure yields `none`. -/
def getClosestPackage (fs : FS) (p : List String) : Option ClosestPackageFS :=
  getClosestPackageGo fs (p.length + 1) p

/-- A directory's own named-package identity, when it has one.  Used by the
specification-side locator description `nearestNamed`. -/
def isNamed (fs : FS) (p : List String) : Option ClosestPackageFS :=
  match fs p with
  | some (some pkg) => if pkg.name = "" then none else some { pkg := pkg, path := p }
  | _ => none

/-- Specification-side locator (from the spec's words): the identity of the
nearest ancestor package (including `p` itself) whose metadata has a
non-empty name, or `none` when no named ancestor exists. -/
def nearestNamed (fs : FS) (p : List String) : Option ClosestPackageFS :=
  match p with
  | [] => isNamed fs []
  | s :: t =>
    match isNamed fs (s :: t) with
    | some r => some r
    | none => nearestNamed fs ((s :: t).dropLast)
termination_by p.length
decreasing_by
  simp only [List.length_dropLast, List.length_cons]
  omega

/-- A concrete file system: `/a/b` holds anonymous metadata (a workspace
marker), `/a` holds the named package `lib@1.0.0`. -/
def fsW : FS := fun q =>
  if q = ["a", "b"] then some (some { name := "", version := "0.0.0" })
  else if q = ["a"] then some (some { name := "lib", version := "1.0.0" })
  else none

/-! ## Extensional characterization of the module aggregator

The fold `aggregateModules` is characterized per package name and per
version, which underpins the invariant, classification and determinism
theorems below. -/

/-- The package a module resolves to, if any (`module.resource` present and
`getClosestPackage` succeeds). -/
def resolvesTo (gcp : Gcp) (m : WModule) : Option ClosestPackage :=
  match m.resource with
  | none => none
  | some r => gcp r

/-- The data one resolving module contributes to its package's entry
list. -/
structure ModInfo where
  version : String
  path : String
  issuer : Option String
  issuerPath : Option String
deriving DecidableEq, Repr

/-- The contribution of module `m` resolving to `cp`. -/
def modInfo (gcp : Gcp) (context : String) (m : WModule) (cp : ClosestPackage) :
    ModInfo :=
  { version := cp.pkg.version
    path := cleanPathRelativeToContext context cp.path
    issuer := issuerResourceOf context m
    issuerPath := issuerPathOf gcp m }

/-- The contribution of `m` to the package named `name`, if any. -/
def infoFor (gcp : Gcp) (context : String) (name : String) (m : WModule) :
    Option ModInfo :=
  match resolvesTo gcp m with
  | none => none
  | some cp => if cp.pkg.name = name then some (modInfo gcp context m cp) else none

/-- Apply one module's contribution to a single name's entry list. -/
def applyInfo (l : List Entry) (i : ModInfo) : List Entry :=
  insertModuleEntry i.version i.path i.issuer i.issuerPath l

/-- The entry list a name accumulates from its modules' contributions. -/
def aggName (infos : List ModInfo) : List Entry := infos.foldl applyInfo []

/-- `_.find` of the first entry at a version. -/
def findv (v : String) : List Entry → Option Entry
  | [] => none
  | e :: rest => if e.version = v then some e else findv v rest

/-- Push an element onto a list unless present (the `indexOf < 0` push). -/
def pushNew (l : List String) (p : String) : List String :=
  if p ∈ l then l else l ++ [p]

/-- Accumulate optional issuer paths with the dedup push. -/
def accPaths (l : List String) : List (Option String) → List String
  | [] => l
  | none :: rest => accPaths l rest
  | some p :: rest => accPaths (pushNew l p) rest

/-- The shape of an already-present entry after absorbing further
contributions at its version: fields kept, issuer paths accumulated. -/
def entryAfter (e : Entry) (fl : List ModInfo) : Entry :=
  { e with issuerPaths := accPaths e.issuerPaths (fl.map ModInfo.issuerPath) }

/-- The shape of a freshly created entry for version `v`: path and issuer
of the first contribution, issuer paths accumulated over all of them. -/
def freshEntry (v : String) (i : ModInfo) (fl : List ModInfo) : Entry :=
  { version := v, path := i.path, issuer := i.issuer,
    issuerPaths := accPaths [] ((i :: fl).map ModInfo.issuerPath) }

/-- The per-name contributions of the module list. -/
def infosOf (gcp : Gcp) (context : String) (mods : List WModule) (name : String) :
    List ModInfo :=
  mods.filterMap (infoFor gcp context name)

/-- A resolver for the invariant witness. -/
def gcp8 : Gcp := fun r =>
  if r = "x.js" then some { pkg := { name := "a", version := "1.0.0" }, path := "/pa" }
  else none

/-- Totality of the `version`-wise order on entries. -/
instance entryVersionLeTotal : IsTotal Entry (fun a b : Entry => a.version ≤ b.version) :=
  ⟨fun a b => le_total a.version b.version⟩

/-- Transitivity of the `version`-wise order on entries. -/
instance entryVersionLeTrans : IsTrans Entry (fun a b : Entry => a.version ≤ b.version) :=
  ⟨fun _ _ _ => le_trans⟩

/-- The resolver of the invalid-semver scenario: package `b` at the
unparsable versions `"x"` and `"y"`. -/
def gcp3x : Gcp := fun r =>
  if r = "x.js" then some { pkg := { name := "b", version := "x" }, path := "/p1" }
  else if r = "y.js" then
    some { pkg := { name := "b", version := "y" }, path := "/p2" }
  else none

/-! ## C9: determinism up to issuer-path insertion order -/

/-- Canonicalize one instance by sorting its issuer paths — the only
ordering the determinism claim exempts. -/
def canonEntry (e : Entry) : Entry :=
  { e with issuerPaths := e.issuerPaths.insertionSort (· ≤ ·) }

/-- Canonicalize a presentation-ready duplicates list. -/
def canonSorted (s : List (String × List Entry)) : List (String × List Entry) :=
  s.map (fun p => (p.1, p.2.map canonEntry))

/-- The data of one instance that survives `verbose = false` rendering,
with issuer paths canonicalized. -/
def renderKey (e : Entry) : String × List String :=
  (e.version, e.issuerPaths.insertionSort (· ≤ ·))

/-- The canonical issuer paths recorded at a version. -/
def keyAt (l : List Entry) (v : String) : Option (List String) :=
  (findv v l).map (fun e => e.issuerPaths.insertionSort (· ≤ ·))

/-- The `verbose = false` rendering of one instance is determined by its
version and issuer-path list. -/
def instStr (k : String × List String) : String :=
  chalkGreenBold k.1 ++ " " ++ chalkWhiteBold (String.intercalate "\n" k.2)

/-- One diagnostic as a function of its rendered key. -/
def diagOfKey (withHelp : Bool) (k : String × List String) : String :=
  k.1 ++ "\n" ++ chalkReset "  Multiple versions of " ++ chalkGreenBold k.1 ++
    chalkWhite " found:\n" ++
    "    " ++ String.intercalate "\n    " k.2 ++
    "\n" ++ (if withHelp then helpFooter else "")

/-- Does version `v` belong to a major-version group of size two or more
of the version list `vs`? -/
def bigb (vs : List String) (v : String) : Bool :=
  match semverMajor v with
  | none => false
  | some k => decide (1 < (vs.filter (fun x => semverMajor x = some k)).length)

/-- A throwaway instance carrying only a version, used to evaluate a
version-only exclusion predicate. -/
def canonV (v : String) : Entry :=
  { version := v, path := "", issuer := none, issuerPaths := [] }

/-! ### The classification loop as a row-wise filter-map -/

/-- One row of the classification loop: the reported entry for one name,
if any. -/
def classifyRow (strict : Bool) (ex : Option (String → Entry → Bool))
    (p : String × List Entry) : Option (String × List Entry) :=
  match classifyName strict ex p.1 p.2 with
  | Except.ok (some f) => some (p.1, f)
  | _ => none

/-! ### C9 fixtures: two orderings of the same module set -/

/-- Resolver for the C9 scenario: two modules of `a@1.0.0` with distinct
issuers, one module of `a@2.0.0`. -/
def gcp9 : Gcp := fun r =>
  if r = "x.js" then some ⟨⟨"a", "1.0.0"⟩, "/pa1"⟩
  else if r = "y.js" then some ⟨⟨"a", "1.0.0"⟩, "/pa1"⟩
  else if r = "z.js" then some ⟨⟨"a", "2.0.0"⟩, "/pa2"⟩
  else if r = "ix.js" then some ⟨⟨"p", "1.0.0"⟩, "/pp"⟩
  else if r = "iy.js" then some ⟨⟨"q", "1.0.0"⟩, "/pq"⟩
  else none

/-- First `a@1.0.0` module, issued from `ix.js`. -/
def m9a : WModule := WModule.mk (some "x.js") (some (WModule.mk (some "ix.js") none))

/-- Second `a@1.0.0` module, issued from `iy.js`. -/
def m9b : WModule := WModule.mk (some "y.js") (some (WModule.mk (some "iy.js") none))

/-- The `a@2.0.0` module. -/
def m9c : WModule := WModule.mk (some "z.js") none

/-- The worker is fuel-irrelevant above the list length. -/
theorem cleanCharsGo_congr : ∀ (f₁ f₂ : Nat) (l : List Char),
    l.length ≤ f₁ → l.length ≤ f₂ → cleanCharsGo f₁ l = cleanCharsGo f₂ l
  | f₁, f₂, [], _, _ => by cases f₁ <;> cases f₂ <;> rfl
  | 0, _, c :: rest, h₁, _ => absurd h₁ (by simp)
  | _ + 1, 0, c :: rest, _, h₂ => absurd h₂ (by simp)
  | f₁ + 1, f₂ + 1, c :: rest, h₁, h₂ => by
    simp only [List.length_cons, Nat.add_le_add_iff_right] at h₁ h₂
    show (if headMatch (c :: rest) then
        '/' :: '~' :: '/' :: cleanCharsGo f₁ (rest.drop 13)
      else c :: cleanCharsGo f₁ rest) =
      (if headMatch (c :: rest) then
        '/' :: '~' :: '/' :: cleanCharsGo f₂ (rest.drop 13)
      else c :: cleanCharsGo f₂ rest)
    by_cases hm : headMatch (c :: rest)
    · rw [if_pos hm, if_pos hm,
        cleanCharsGo_congr f₁ f₂ (rest.drop 13)
          (le_trans (by simp [List.length_drop]) h₁)
          (le_trans (by simp [List.length_drop]) h₂)]
    · rw [if_neg hm, if_neg hm, cleanCharsGo_congr f₁ f₂ rest h₁ h₂]

/-- Step equation of `cleanChars` at a separator-regex match. -/
theorem cleanChars_cons_match {c : Char} {rest : List Char}
    (hm : headMatch (c :: rest) = true) :
    cleanChars (c :: rest) = '/' :: '~' :: '/' :: cleanChars (rest.drop 13) := by
  show cleanCharsGo (rest.length + 1) (c :: rest) = _
  show (if headMatch (c :: rest) then
      '/' :: '~' :: '/' :: cleanCharsGo rest.length (rest.drop 13)
    else c :: cleanCharsGo rest.length rest) = _
  rw [if_pos hm]
  rw [cleanCharsGo_congr rest.length (rest.drop 13).length (rest.drop 13)
    (by simp [List.length_drop]) le_rfl]
  rfl

/-- Step equation of `cleanChars` at a non-match. -/
theorem cleanChars_cons_nomatch {c : Char} {rest : List Char}
    (hm : headMatch (c :: rest) = false) :
    cleanChars (c :: rest) = c :: cleanChars rest := by
  show cleanCharsGo (rest.length + 1) (c :: rest) = _
  show (if headMatch (c :: rest) then
      '/' :: '~' :: '/' :: cleanCharsGo rest.length (rest.drop 13)
    else c :: cleanCharsGo rest.length rest) = _
  rw [if_neg (by simp [hm])]
  rfl

/-! ## Helper lemmas about the issuer chain tracer -/

/-- `String.intercalate` on a two-element list. -/
theorem intercalate_pair (s a b : String) :
    String.intercalate s [a, b] = a ++ s ++ b := by
  simp [String.intercalate, String.intercalate.go]

/-- The accumulator of `getIssuer` stays duplicate-free. -/
theorem getIssuer_nodup_aux (gcp : Gcp) :
    ∀ (m : WModule) (ret : List String), ret.Nodup → (getIssuer gcp m ret).Nodup
  | WModule.mk res iss, ret, h => by
    match res with
    | none => simpa [getIssuer] using h
    | some resource =>
      have h1 :
          (match gcp resource with
            | none => ret
            | some cp =>
              let p := cp.pkg.name ++ "@" ++ cp.pkg.version
              if p ∈ ret then ret else ret ++ [p]).Nodup := by
        match gcp resource with
        | none => exact h
        | some cp =>
          by_cases hp : cp.pkg.name ++ "@" ++ cp.pkg.version ∈ ret
          · simpa [hp] using h
          · simp only [hp, if_false]
            simp [List.nodup_append, h, hp]
      match iss with
      | none => simpa [getIssuer] using h1
      | some m' =>
        have := getIssuer_nodup_aux gcp m' _ h1
        simpa [getIssuer] using this

/-- Every element of the `getIssuer` accumulator is either inherited or a
`name@version` string of a package resolved along the chain. -/
theorem getIssuer_mem_aux (gcp : Gcp) :
    ∀ (m : WModule) (ret : List String) (s : String), s ∈ getIssuer gcp m ret →
      s ∈ ret ∨ ∃ r cp, gcp r = some cp ∧ s = cp.pkg.name ++ "@" ++ cp.pkg.version
  | WModule.mk res iss, ret, s => by
    intro hs
    match res with
    | none => exact Or.inl (by simpa [getIssuer] using hs)
    | some resource =>
      have hstep :
          ∀ t, t ∈ (match gcp resource with
            | none => ret
            | some cp =>
              let p := cp.pkg.name ++ "@" ++ cp.pkg.version
              if p ∈ ret then ret else ret ++ [p]) →
            t ∈ ret ∨ ∃ r cp, gcp r = some cp ∧
              t = cp.pkg.name ++ "@" ++ cp.pkg.version := by
        intro t ht
        match hg : gcp resource with
        | none => exact Or.inl (by simpa [hg] using ht)
        | some cp =>
          simp only [hg] at ht
          by_cases hp : cp.pkg.name ++ "@" ++ cp.pkg.version ∈ ret
          · exact Or.inl (by simpa [hp] using ht)
          · simp only [hp, if_false, List.mem_append, List.mem_singleton] at ht
            rcases ht with ht | ht
            · exact Or.inl ht
            · exact Or.inr ⟨resource, cp, hg, ht⟩
      match iss with
      | none =>
        have : s ∈ (match gcp resource with
            | none => ret
            | some cp =>
              let p := cp.pkg.name ++ "@" ++ cp.pkg.version
              if p ∈ ret then ret else ret ++ [p]) := by
          simpa [getIssuer] using hs
        exact hstep s this
      | some m' =>
        have hs' : s ∈ getIssuer gcp m'
            (match gcp resource with
              | none => ret
              | some cp =>
                let p := cp.pkg.name ++ "@" ++ cp.pkg.version
                if p ∈ ret then ret else ret ++ [p]) := by
          simpa [getIssuer] using hs
        rcases getIssuer_mem_aux gcp m' _ s hs' with h | h
        · exact hstep s h
        · exact Or.inr h

/-- **C10**: for every module whose issuer back-reference chain is finite
and acyclic (every `WModule` value), the issuer trace terminates (the
function is total) and returns a list of pairwise-distinct `name@version`
strings of packages resolved along the chain. -/
theorem getIssuer_finite_distinct (gcp : Gcp) (m : WModule) :
    (getIssuer gcp m []).Nodup ∧
      ∀ s ∈ getIssuer gcp m [], ∃ r cp, gcp r = some cp ∧
        s = cp.pkg.name ++ "@" ++ cp.pkg.version := by
  refine ⟨getIssuer_nodup_aux gcp m [] List.nodup_nil, fun s hs => ?_⟩
  rcases getIssuer_mem_aux gcp m [] s hs with h | h
  · simp at h
  · exact h

/-- **C1 counterexample**: for the chain `A → B → C` with distinct packages
`a@1.0.0`, `b@2.0.0`, `c@3.0.0`, the rendered issuer path is
`"~/b@2.0.0 -> c@3.0.0"` — the chain walk starts at the module itself
(`getIssuer(module)`, source line 124), so the popped "last" element is the
root-most `A`, not the immediate requester — and not the claimed
`"~/a@1.0.0 -> b@2.0.0"`. -/
theorem issuerPath_chain_counterexample :
    issuerPathOf gcpChain wmC = some "~/b@2.0.0 -> c@3.0.0" ∧
      issuerPathOf gcpChain wmC ≠ some "~/a@1.0.0 -> b@2.0.0" := by
  constructor
  · rfl
  · decide

/-- **C1 (amended)**: for a module `C` issued by `B`, in turn issued by `A`,
with each level resolving to a package whose `name@version` strings are
pairwise distinct, the rendered issuer path equals `"~/"` followed by `B`'s
`name@version`, then `" -> "`, then `C`'s **own** `name@version`: the
accumulated chain starts at the module itself, the **root-most** entry
(`A`) is dropped, and the remainder appears root-most first. -/
theorem issuerPath_chain_amended (gcp : Gcp) (rA rB rC pA pB pC : String)
    (pkgA pkgB pkgC : Pkg)
    (hA : gcp rA = some ⟨pkgA, pA⟩) (hB : gcp rB = some ⟨pkgB, pB⟩)
    (hC : gcp rC = some ⟨pkgC, pC⟩)
    (hBC : pkgB.name ++ "@" ++ pkgB.version ≠ pkgC.name ++ "@" ++ pkgC.version)
    (hAC : pkgA.name ++ "@" ++ pkgA.version ≠ pkgC.name ++ "@" ++ pkgC.version)
    (hAB : pkgA.name ++ "@" ++ pkgA.version ≠ pkgB.name ++ "@" ++ pkgB.version) :
    issuerPathOf gcp
        (WModule.mk (some rC) (some (WModule.mk (some rB)
          (some (WModule.mk (some rA) none))))) =
      some ("~/" ++ (pkgB.name ++ "@" ++ pkgB.version) ++ " -> " ++
        (pkgC.name ++ "@" ++ pkgC.version)) := by
  simp only [issuerPathOf, WModule.issuer, WModule.resource, getIssuer, hA, hB, hC]
  simp only [String.append_assoc] at hBC hAC hAB
  simp [hBC, hAC, hAB, getIssuerPath, intercalate_pair, String.append_assoc]

/-- **C1 witness** for the amended rendering theorem, at the concrete
three-package chain. -/
theorem issuerPath_chain_amended_witness :
    issuerPathOf gcpChain wmC = some ("~/" ++ "b@2.0.0" ++ " -> " ++ "c@3.0.0") :=
  issuerPath_chain_amended gcpChain "a.js" "b.js" "c.js" "/pa" "/pb" "/pc"
    ⟨"a", "1.0.0"⟩ ⟨"b", "2.0.0"⟩ ⟨"c", "3.0.0"⟩
    (by decide) (by decide) (by decide) (by decide) (by decide) (by decide)

/-! ## C4: idempotence of the path normalizer -/

/-- The characters of `node_modules`, as a literal. -/
theorem nmChars_eq :
    nmChars = ['n', 'o', 'd', 'e', '_', 'm', 'o', 'd', 'u', 'l', 'e', 's'] := rfl

/-- A match-free list is left unchanged by `cleanChars`. -/
theorem cleanChars_of_noMatch : ∀ l : List Char, noMatch l = true → cleanChars l = l
  | [], _ => rfl
  | c :: rest, h => by
    rw [noMatch, Bool.and_eq_true, Bool.not_eq_true'] at h
    rw [cleanChars_cons_nomatch h.1, cleanChars_of_noMatch rest h.2]

/-- The take/drop form of a separator-regex match, in prefix form. -/
theorem nmsep_prefix_iff (l : List Char) :
    (l.take 12 = nmChars ∧ isSepAt (l.drop 12) = true) ↔
      ∃ s, isSep s = true ∧ (nmChars ++ [s]) <+: l := by
  constructor
  · rintro ⟨h1, h2⟩
    match hd : l.drop 12 with
    | [] => rw [hd] at h2; simp [isSepAt] at h2
    | s :: t =>
      refine ⟨s, by rw [hd] at h2; simpa [isSepAt] using h2, t, ?_⟩
      have := List.take_append_drop 12 l
      rw [h1, hd] at this
      simpa using this
  · rintro ⟨s, hs, t, ht⟩
    have hl : l = nmChars ++ (s :: t) := by
      rw [← ht]; simp
    subst hl
    refine ⟨List.take_left' (by rw [nmChars_eq]; rfl), ?_⟩
    rw [List.drop_left' (by rw [nmChars_eq]; rfl)]
    simpa [isSepAt] using hs

/-- `headMatch` in prefix form. -/
theorem headMatch_iff (c : Char) (rest : List Char) :
    headMatch (c :: rest) = true ↔
      isSep c = true ∧ ∃ s, isSep s = true ∧ (nmChars ++ [s]) <+: rest := by
  rw [headMatch, Bool.and_eq_true, Bool.and_eq_true]
  rw [← nmsep_prefix_iff rest]
  simp [and_assoc]

/-- If the cleaned output starts with `node_modules` followed by a
separator, so did the input. -/
theorem cleanChars_nmsep_prefix : ∀ (l p : List Char) (s : Char),
    p <:+ nmChars → isSep s = true → (p ++ [s]) <+: cleanChars l →
    ∃ s', isSep s' = true ∧ (p ++ [s']) <+: l := by
  intro l
  induction l with
  | nil =>
    intro p s _ _ hpre
    rw [show cleanChars [] = [] from rfl] at hpre
    have := hpre.length_le
    simp at this
  | cons c rest ih =>
    intro p s hsuf hsep hpre
    by_cases hm : headMatch (c :: rest) = true
    · rw [cleanChars_cons_match hm] at hpre
      match p with
      | [] =>
        refine ⟨c, ?_, rest, rfl⟩
        rw [headMatch_iff] at hm
        exact hm.1
      | c' :: p'' =>
        rw [List.cons_append, List.cons_prefix_cons] at hpre
        have hc' : c' ∈ nmChars := hsuf.subset (List.mem_cons_self c' p'')
        rw [hpre.1] at hc'
        exact absurd hc' (by decide)
    · rw [cleanChars_cons_nomatch (by simpa using hm)] at hpre
      match p with
      | [] =>
        rw [List.nil_append, List.cons_prefix_cons] at hpre
        exact ⟨c, hpre.1 ▸ hsep, rest, rfl⟩
      | c' :: p'' =>
        rw [List.cons_append, List.cons_prefix_cons] at hpre
        obtain ⟨s', hs', hpre'⟩ :=
          ih p'' s (List.IsSuffix.trans (List.suffix_cons c' p'') hsuf) hsep hpre.2
        exact ⟨s', hs', by
          rw [List.cons_append, List.cons_prefix_cons]
          exact ⟨hpre.1, hpre'⟩⟩

/-- `noAdj` passes to the tail. -/
theorem noAdj_tail {c : Char} {rest : List Char} (h : noAdj (c :: rest) = true) :
    noAdj rest = true := by
  simp [noAdj, Bool.and_eq_true] at h
  exact h.2

/-- `noAdj` passes to any drop. -/
theorem noAdj_drop : ∀ (n : Nat) (l : List Char), noAdj l = true → noAdj (l.drop n) = true
  | 0, l, h => h
  | n + 1, [], h => h
  | n + 1, c :: rest, h => by
    rw [List.drop_succ_cons]
    exact noAdj_drop n rest (noAdj_tail h)

/-- Key lemma: cleaning an input with no adjacent `node_modules` segments
leaves no remaining match. -/
theorem noMatch_cleanChars : ∀ l : List Char, noAdj l = true → noMatch (cleanChars l) = true
  | [] , _ => rfl
  | c :: rest, h => by
    by_cases hm : headMatch (c :: rest) = true
    · rw [cleanChars_cons_match hm]
      have hIH : noMatch (cleanChars (rest.drop 13)) = true :=
        noMatch_cleanChars (rest.drop 13) (noAdj_drop 13 rest (noAdj_tail h))
      have hm3 : headMatch ('/' :: cleanChars (rest.drop 13)) = false := by
        by_contra hmm
        rw [Bool.not_eq_false, headMatch_iff] at hmm
        obtain ⟨-, s, hs, hpre⟩ := hmm
        obtain ⟨s', hs', hpre'⟩ :=
          cleanChars_nmsep_prefix (rest.drop 13) nmChars s List.suffix_rfl hs hpre
        have hadj : headAdj (c :: rest) = true := by
          rw [headAdj]
          have h1 : (rest.drop 13).take 12 = nmChars ∧
              isSepAt ((rest.drop 13).drop 12) = true :=
            (nmsep_prefix_iff (rest.drop 13)).mpr ⟨s', hs', hpre'⟩
          simp only [hm, h1.1, Bool.true_and, decide_eq_true_eq, and_true,
            decide_True, Bool.and_self]
          exact h1.2
        rw [noAdj, Bool.and_eq_true, Bool.not_eq_true'] at h
        rw [h.1] at hadj
        exact Bool.false_ne_true hadj
      show (!headMatch ('/' :: '~' :: '/' :: cleanChars (rest.drop 13)) &&
        (!headMatch ('~' :: '/' :: cleanChars (rest.drop 13)) &&
          (!headMatch ('/' :: cleanChars (rest.drop 13)) &&
            noMatch (cleanChars (rest.drop 13))))) = true
      rw [hm3, hIH]
      have hm1 : headMatch ('/' :: '~' :: '/' :: cleanChars (rest.drop 13)) = false := by
        rw [headMatch]
        simp [nmChars_eq, List.take]
      have hm2 : headMatch ('~' :: '/' :: cleanChars (rest.drop 13)) = false := by
        rw [headMatch]
        simp [isSep]
      rw [hm1, hm2]
      rfl
    · rw [cleanChars_cons_nomatch (by simpa using hm)]
      have hIH : noMatch (cleanChars rest) = true :=
        noMatch_cleanChars rest (noAdj_tail h)
      have hmc : headMatch (c :: cleanChars rest) = false := by
        by_contra hmm
        rw [Bool.not_eq_false, headMatch_iff] at hmm
        obtain ⟨hc, s, hs, hpre⟩ := hmm
        obtain ⟨s', hs', hpre'⟩ :=
          cleanChars_nmsep_prefix rest nmChars s List.suffix_rfl hs hpre
        have : headMatch (c :: rest) = true :=
          (headMatch_iff c rest).mpr ⟨hc, s', hs', hpre'⟩
        exact hm this
      show (!headMatch (c :: cleanChars rest) && noMatch (cleanChars rest)) = true
      rw [hmc, hIH]
      rfl
termination_by l => l.length
decreasing_by
  · simp only [List.length_cons, List.length_drop]
    omega
  · simp

/-- **C4 counterexample**: normalization is not idempotent on the path
`"a/node_modules/node_modules/b"`: one application yields
`"a/~/node_modules/b"`, a second yields `"a/~/~/b"`. -/
theorem cleanPath_not_idempotent :
    cleanPath (cleanPath "a/node_modules/node_modules/b") ≠
      cleanPath "a/node_modules/node_modules/b" ∧
      cleanPath "a/node_modules/node_modules/b" = "a/~/node_modules/b" ∧
      cleanPath (cleanPath "a/node_modules/node_modules/b") = "a/~/~/b" := by
  refine ⟨?_, rfl, rfl⟩
  decide

/-- **C4 (amended)**: path normalization is idempotent on every path that
contains no two adjacent `node_modules` segments (no substring
`sep node_modules sep node_modules sep` for separators `/` or `\`); on such
adjacent segments the trailing separator of the first replaced segment is
consumed, leaving a fresh `node_modules` match for the second pass. -/
theorem cleanPath_idempotent_of_noAdj (p : String) (h : noAdj p.data = true) :
    cleanPath (cleanPath p) = cleanPath p := by
  show String.mk (cleanChars (String.mk (cleanChars p.data)).data) =
    String.mk (cleanChars p.data)
  have : (String.mk (cleanChars p.data)).data = cleanChars p.data := rfl
  rw [this, cleanChars_of_noMatch _ (noMatch_cleanChars p.data h)]

/-- **C4 witness**: idempotence at the concrete non-adjacent path
`"/root/node_modules/x/node_modules/y"`. -/
theorem cleanPath_idempotent_witness :
    noAdj ("/root/node_modules/x/node_modules/y").data = true ∧
      cleanPath (cleanPath "/root/node_modules/x/node_modules/y") =
        cleanPath "/root/node_modules/x/node_modules/y" :=
  ⟨by decide, cleanPath_idempotent_of_noAdj _ (by decide)⟩

/-! ## C6: the exclusion predicate -/

/-- **C6**: when an exclusion predicate is configured, it is applied to each
instance remaining after duplicate classification (strict or relaxed),
receiving the instance augmented with its package `name`; instances on
which it returns `true` are dropped, and if at most one instance remains,
no diagnostic is emitted for the name. -/
theorem exclude_filtering (strict : Bool) (ex : String → Entry → Bool)
    (name : String) (instances filtered : List Entry)
    (h : classifyName strict none name instances = Except.ok (some filtered)) :
    classifyName strict (some ex) name instances =
      if (filtered.filter (fun inst => ¬ ex name inst)).length ≤ 1 then
        Except.ok none
      else
        Except.ok (some (filtered.filter (fun inst => ¬ ex name inst))) := by
  rw [classifyName] at h ⊢
  by_cases hlen : instances.length ≤ 1
  · rw [if_pos hlen] at h
    exact absurd h (by simp)
  · rw [if_neg hlen] at h ⊢
    cases hstep : (if strict then Except.ok (some instances)
      else
        match groupByMajor instances with
        | Except.error e => Except.error e
        | Except.ok groups =>
          let filtered := relaxedFiltered groups
          if filtered.length ≤ 1 then Except.ok none
          else Except.ok (some filtered) :
        Except String (Option (List Entry))) with
    | error e => rw [hstep] at h; exact absurd h (by simp)
    | ok o =>
      rw [hstep] at h
      match o with
      | none => exact absurd h (by simp)
      | some f =>
        simp only [Except.ok.injEq, Option.some.injEq] at h
        subst h
        rfl

/-- **C6 witness**: with strict classification reporting `a@1.0.0` and
`a@2.0.0`, excluding version `2.0.0` drops the count to one and no
diagnostic is produced for the name. -/
theorem exclude_filtering_witness :
    classifyName true none "a" [eA1, eA2] = Except.ok (some [eA1, eA2]) ∧
      classifyName true (some exV2) "a" [eA1, eA2] = Except.ok none := by
  constructor
  · rfl
  · have h := exclude_filtering true exV2 "a" [eA1, eA2] [eA1, eA2] (by rfl)
    exact h.trans (by rfl)

/-- `groupInsert` extends the looked-up group of its key. -/
theorem glookup_groupInsert_self (k : Nat) (e : Entry) :
    ∀ gs, glookup k (groupInsert k e gs) = some ((glookup k gs).getD [] ++ [e])
  | [] => by simp [groupInsert, glookup]
  | (k', g) :: rest => by
    by_cases hk : k' = k
    · subst hk
      simp [groupInsert, glookup]
    · rw [groupInsert, if_neg hk, glookup, if_neg hk, glookup, if_neg hk]
      exact glookup_groupInsert_self k e rest

/-- `groupInsert` leaves other keys' groups unchanged. -/
theorem glookup_groupInsert_other {k k' : Nat} (hk : k' ≠ k) (e : Entry) :
    ∀ gs, glookup k' (groupInsert k e gs) = glookup k' gs
  | [] => by simp [groupInsert, glookup, Ne.symm hk]
  | (k'', g) :: rest => by
    by_cases hkk : k'' = k
    · subst hkk
      rw [groupInsert, if_pos rfl, glookup, if_neg (Ne.symm hk),
        glookup, if_neg (Ne.symm hk)]
    · rw [groupInsert, if_neg hkk, glookup, glookup]
      by_cases h2 : k'' = k'
      · rw [if_pos h2, if_pos h2]
      · rw [if_neg h2, if_neg h2]
        exact glookup_groupInsert_other hk e rest

/-- The group contents after a successful `groupByMajorAux`: the starting
group of `k` (if any) extended by the instances of `l` whose major is `k`,
in order. -/
theorem groupByMajorAux_char : ∀ (l : List Entry) (acc : List (Nat × List Entry)),
    (∀ e ∈ l, (semverMajor e.version).isSome) →
    ∃ gs, groupByMajorAux acc l = Except.ok gs ∧
      ∀ k, glookup k gs =
        (match glookup k acc, l.filter (fun e => semverMajor e.version = some k) with
          | some g, fl => some (g ++ fl)
          | none, [] => none
          | none, fl => some fl)
  | [], acc, _ => by
    refine ⟨acc, rfl, fun k => ?_⟩
    cases glookup k acc <;> simp
  | e :: rest, acc, hpar => by
    obtain ⟨ke, hke⟩ := Option.isSome_iff_exists.mp (hpar e (List.mem_cons_self e rest))
    obtain ⟨gs, hgs, hchar⟩ :=
      groupByMajorAux_char rest (groupInsert ke e acc)
        (fun x hx => hpar x (List.mem_cons_of_mem e hx))
    refine ⟨gs, ?_, fun k => ?_⟩
    · rw [groupByMajorAux, hke]
      exact hgs
    · rw [hchar k]
      by_cases hk : k = ke
      · subst hk
        rw [glookup_groupInsert_self]
        rw [List.filter_cons_of_pos (by simp [hke])]
        cases hacc : glookup k acc with
        | none => simp
        | some g => simp
      · rw [glookup_groupInsert_other hk e]
        rw [List.filter_cons_of_neg (by simp [hke]; exact Ne.symm hk)]

/-- Keys listed in the group list. -/
theorem glookup_of_mem : ∀ {gs : List (Nat × List Entry)} {k : Nat} {g : List Entry},
    (gs.map Prod.fst).Nodup → (k, g) ∈ gs → glookup k gs = some g := by
  intro gs
  induction gs with
  | nil => intro k g _ h; simp at h
  | cons p rest ih =>
    intro k g hnd hmem
    obtain ⟨k', g'⟩ := p
    rw [List.map_cons, List.nodup_cons] at hnd
    rcases List.mem_cons.mp hmem with h | h
    · rw [Prod.mk.injEq] at h
      rw [glookup, if_pos h.1.symm, h.2]
    · have hk' : k' ≠ k := by
        rintro rfl
        exact hnd.1 (List.mem_map.mpr ⟨(k', g), h, rfl⟩)
      rw [glookup, if_neg hk']
      exact ih hnd.2 h

/-- Conversely, a successful lookup is a membership. -/
theorem mem_of_glookup : ∀ {gs : List (Nat × List Entry)} {k : Nat} {g : List Entry},
    glookup k gs = some g → (k, g) ∈ gs := by
  intro gs
  induction gs with
  | nil => intro k g h; simp [glookup] at h
  | cons p rest ih =>
    intro k g h
    obtain ⟨k', g'⟩ := p
    rw [glookup] at h
    by_cases hk : k' = k
    · rw [if_pos hk] at h
      subst hk
      exact List.mem_cons.mpr (Or.inl (by simpa using h.symm))
    · rw [if_neg hk] at h
      exact List.mem_cons.mpr (Or.inr (ih h))

/-- The key list of `groupInsert`. -/
theorem groupInsert_keys (k : Nat) (e : Entry) :
    ∀ gs : List (Nat × List Entry),
      (groupInsert k e gs).map Prod.fst =
        if k ∈ gs.map Prod.fst then gs.map Prod.fst else gs.map Prod.fst ++ [k]
  | [] => by simp [groupInsert]
  | (k', g) :: rest => by
    by_cases hk : k' = k
    · subst hk
      simp [groupInsert]
    · rw [groupInsert, if_neg hk]
      simp only [List.map_cons, groupInsert_keys k e rest]
      by_cases hmem : k ∈ rest.map Prod.fst
      · rw [if_pos hmem, if_pos (by simp [hmem])]
      · rw [if_neg hmem, if_neg (by simp [hmem, Ne.symm hk]),
          List.cons_append]

/-- `groupInsert` preserves key uniqueness. -/
theorem groupInsert_keys_nodup {k : Nat} {e : Entry} {gs : List (Nat × List Entry)}
    (h : (gs.map Prod.fst).Nodup) : ((groupInsert k e gs).map Prod.fst).Nodup := by
  rw [groupInsert_keys]
  by_cases hmem : k ∈ gs.map Prod.fst
  · rwa [if_pos hmem]
  · rw [if_neg hmem]
    simp [List.nodup_append, h, hmem]

/-- A successful `groupByMajorAux` run keeps keys unique. -/
theorem groupByMajorAux_keys_nodup :
    ∀ (l : List Entry) (acc gs : List (Nat × List Entry)),
      (acc.map Prod.fst).Nodup → groupByMajorAux acc l = Except.ok gs →
      (gs.map Prod.fst).Nodup
  | [], acc, gs, hnd, h => by
    rw [groupByMajorAux] at h
    cases h
    exact hnd
  | e :: rest, acc, gs, hnd, h => by
    rw [groupByMajorAux] at h
    cases hke : semverMajor e.version with
    | none => rw [hke] at h; exact absurd h (by simp)
    | some ke =>
      rw [hke] at h
      exact groupByMajorAux_keys_nodup rest _ gs (groupInsert_keys_nodup hnd) h

/-- `relaxedFiltered` as a join. -/
theorem relaxedFiltered_eq_join (gs : List (Nat × List Entry)) :
    relaxedFiltered gs = ((gs.filter (fun g => 1 < g.2.length)).map Prod.snd).flatten := by
  have aux : ∀ (L : List (Nat × List Entry)) (init : List Entry),
      L.foldl (fun acc g => acc ++ g.2) init = init ++ (L.map Prod.snd).flatten := by
    intro L
    induction L with
    | nil => intro init; simp
    | cons p rest ih => intro init; simp [ih, List.append_assoc]
  rw [relaxedFiltered, aux]
  simp

/-- Membership in `relaxedFiltered`. -/
theorem mem_relaxedFiltered {gs : List (Nat × List Entry)} {e : Entry} :
    e ∈ relaxedFiltered gs ↔ ∃ k g, (k, g) ∈ gs ∧ 1 < g.length ∧ e ∈ g := by
  rw [relaxedFiltered_eq_join]
  simp only [List.mem_flatten, List.mem_map, List.mem_filter]
  constructor
  · rintro ⟨l, ⟨⟨k, g⟩, ⟨hmem, hlen⟩, rfl⟩, he⟩
    exact ⟨k, g, hmem, by simpa using hlen, he⟩
  · rintro ⟨k, g, hmem, hlen, he⟩
    exact ⟨g, ⟨(k, g), ⟨hmem, by simpa using hlen⟩, rfl⟩, he⟩

/-- A qualifying group forces at least two elements in the relaxed filter. -/
theorem relaxedFiltered_two_le {gs : List (Nat × List Entry)}
    (h : ∃ k g, (k, g) ∈ gs ∧ 1 < g.length) : 2 ≤ (relaxedFiltered gs).length := by
  obtain ⟨k, g, hmem, hlen⟩ := h
  rw [relaxedFiltered_eq_join, List.length_flatten]
  have hg : g ∈ (gs.filter (fun g => 1 < g.2.length)).map Prod.snd :=
    List.mem_map.mpr ⟨(k, g), List.mem_filter.mpr ⟨hmem, by simpa using hlen⟩, rfl⟩
  have hmem2 : g.length ∈
      ((gs.filter (fun g => 1 < g.2.length)).map Prod.snd).map List.length :=
    List.mem_map.mpr ⟨g, hg, rfl⟩
  have hle := List.single_le_sum (fun x _ => Nat.zero_le x) g.length hmem2
  omega

/-- **C2**: in relaxed mode (`strict = false`, no exclusion), for a package
name with at least two instances whose versions all parse, the name is
reported iff some integer-major-version group has two or more members, and
the reported set is exactly the union of all groups of size two or more:
an instance is reported iff its own major-version group has size `> 1`. -/
theorem relaxed_mode_grouping (name : String) (instances : List Entry)
    (hlen : 2 ≤ instances.length)
    (hpar : ∀ e ∈ instances, (semverMajor e.version).isSome) :
    ∃ U, classifyName false none name instances =
        Except.ok (if U = [] then none else some U) ∧
      (∀ e, e ∈ U ↔ (e ∈ instances ∧ ∃ k, semverMajor e.version = some k ∧
          1 < (instances.filter (fun x => semverMajor x.version = some k)).length)) ∧
      ((∃ k, 1 <
          (instances.filter (fun x => semverMajor x.version = some k)).length) ↔
        U ≠ []) := by
  obtain ⟨gs, hgs, hchar⟩ := groupByMajorAux_char instances [] hpar
  have hnd : (gs.map Prod.fst).Nodup :=
    groupByMajorAux_keys_nodup instances [] gs (by simp) hgs
  have hgm : groupByMajor instances = Except.ok gs := hgs
  have hcharNil : ∀ k, glookup k gs =
      (match instances.filter (fun e => semverMajor e.version = some k) with
        | [] => none
        | fl => some fl) := by
    intro k
    have h := hchar k
    match hfl : instances.filter (fun e => semverMajor e.version = some k) with
    | [] =>
      rw [hfl] at h ⊢
      simpa [glookup] using h
    | f :: fl =>
      rw [hfl] at h ⊢
      simpa [glookup] using h
  have hUmem : ∀ e, e ∈ relaxedFiltered gs ↔
      (e ∈ instances ∧ ∃ k, semverMajor e.version = some k ∧
        1 < (instances.filter (fun x => semverMajor x.version = some k)).length) := by
    intro e
    rw [mem_relaxedFiltered]
    constructor
    · rintro ⟨k, g, hmem, hbig, he⟩
      have hlk := glookup_of_mem hnd hmem
      rw [hcharNil k] at hlk
      match hfl : instances.filter (fun x => semverMajor x.version = some k) with
      | [] => rw [hfl] at hlk; exact absurd hlk (by simp)
      | f :: fl =>
        rw [hfl] at hlk
        have hg : g = f :: fl := by simpa using hlk.symm
        subst hg
        have he' := List.mem_filter.mp (hfl ▸ he)
        exact ⟨he'.1, k, by simpa using he'.2, by rw [hfl]; exact hbig⟩
    · rintro ⟨hin, k, hk, hbig⟩
      have hefl : e ∈ instances.filter (fun x => semverMajor x.version = some k) :=
        List.mem_filter.mpr ⟨hin, by simp [hk]⟩
      have hlk := hcharNil k
      match hfl : instances.filter (fun x => semverMajor x.version = some k) with
      | [] => rw [hfl] at hefl; simp at hefl
      | f :: fl =>
        rw [hfl] at hlk
        exact ⟨k, f :: fl, mem_of_glookup hlk, hfl ▸ hbig, hfl ▸ hefl⟩
  have hqual : (∃ k, 1 <
      (instances.filter (fun x => semverMajor x.version = some k)).length) ↔
      relaxedFiltered gs ≠ [] := by
    constructor
    · rintro ⟨k, hbig⟩
      have : ∃ f, f ∈ instances.filter (fun x => semverMajor x.version = some k) := by
        match hfl : instances.filter (fun x => semverMajor x.version = some k) with
        | [] => rw [hfl] at hbig; simp at hbig
        | f :: fl => exact ⟨f, hfl ▸ List.mem_cons_self f fl⟩
      obtain ⟨f, hf⟩ := this
      have hfin := List.mem_filter.mp hf
      have : f ∈ relaxedFiltered gs :=
        (hUmem f).mpr ⟨hfin.1, k, by simpa using hfin.2, hbig⟩
      exact List.ne_nil_of_mem this
    · intro hne
      match hU : relaxedFiltered gs with
      | [] => exact absurd hU hne
      | f :: U' =>
        have : f ∈ relaxedFiltered gs := hU ▸ List.mem_cons_self f U'
        obtain ⟨-, k, -, hbig⟩ := (hUmem f).mp this
        exact ⟨k, hbig⟩
  refine ⟨relaxedFiltered gs, ?_, hUmem, hqual⟩
  rw [classifyName, if_neg (by omega)]
  have hstep : (if (false : Bool) then Except.ok (some instances)
      else
        match groupByMajor instances with
        | Except.error e => Except.error e
        | Except.ok groups =>
          let filtered := relaxedFiltered groups
          if filtered.length ≤ 1 then Except.ok none
          else Except.ok (some filtered) :
        Except String (Option (List Entry))) =
      (if (relaxedFiltered gs).length ≤ 1 then Except.ok none
        else Except.ok (some (relaxedFiltered gs))) := by
    rw [if_neg (by simp), hgm]
  rw [hstep]
  by_cases hU : relaxedFiltered gs = []
  · rw [if_pos (by rw [hU]; simp), if_pos hU]
  · have h2 : 2 ≤ (relaxedFiltered gs).length := by
      apply relaxedFiltered_two_le
      match hUf : relaxedFiltered gs with
      | [] => exact absurd hUf hU
      | f :: U' =>
        have : f ∈ relaxedFiltered gs := hUf ▸ List.mem_cons_self f U'
        obtain ⟨k, g, hmem, hbig, -⟩ := mem_relaxedFiltered.mp this
        exact ⟨k, g, hmem, hbig⟩
    rw [if_neg (by omega), if_neg hU]

/-- **C2 witness**: the spec's scenario — `b` at `1.0.0`, `1.5.0`, `2.0.0`
in relaxed mode — instantiates the grouping theorem. -/
theorem relaxed_mode_grouping_witness :
    (2 ≤ ([eB1, eB15, eB2] : List Entry).length ∧
      ∀ e ∈ ([eB1, eB15, eB2] : List Entry), (semverMajor e.version).isSome) ∧
      ∃ U, classifyName false none "b" [eB1, eB15, eB2] =
          Except.ok (if U = [] then none else some U) ∧
        (∀ e, e ∈ U ↔ (e ∈ ([eB1, eB15, eB2] : List Entry) ∧
          ∃ k, semverMajor e.version = some k ∧
            1 < (([eB1, eB15, eB2] : List Entry).filter
              (fun x => semverMajor x.version = some k)).length)) ∧
        ((∃ k, 1 < (([eB1, eB15, eB2] : List Entry).filter
            (fun x => semverMajor x.version = some k)).length) ↔ U ≠ []) :=
  ⟨⟨by decide, by decide⟩,
    relaxed_mode_grouping "b" [eB1, eB15, eB2] (by decide) (by decide)⟩

/-- Step equation of `findRoot` at the file-system root. -/
theorem findRoot_nil (fs : FS) :
    findRoot fs [] = if (fs []).isSome then some [] else none := by
  rw [findRoot]

/-- Step equation of `findRoot` at a non-root directory. -/
theorem findRoot_cons (fs : FS) (s : String) (t : List String) :
    findRoot fs (s :: t) =
      if (fs (s :: t)).isSome then some (s :: t)
      else findRoot fs ((s :: t).dropLast) := by
  rw [findRoot]

/-- Step equation of `nearestNamed` at the file-system root. -/
theorem nearestNamed_nil (fs : FS) : nearestNamed fs [] = isNamed fs [] := by
  rw [nearestNamed]

/-- Step equation of `nearestNamed` at a non-root directory. -/
theorem nearestNamed_cons (fs : FS) (s : String) (t : List String) :
    nearestNamed fs (s :: t) =
      match isNamed fs (s :: t) with
      | some r => some r
      | none => nearestNamed fs ((s :: t).dropLast) := by
  rw [nearestNamed]

/-- `findRoot` never ascends below its argument's depth. -/
theorem findRoot_length (fs : FS) : ∀ (p root : List String),
    findRoot fs p = some root → root.length ≤ p.length
  | [], root, h => by
    rw [findRoot_nil] at h
    split_ifs at h
    cases h
    exact le_rfl
  | s :: t, root, h => by
    rw [findRoot_cons] at h
    split_ifs at h with hfs
    · cases h
      exact le_rfl
    · have := findRoot_length fs ((s :: t).dropLast) root h
      simp only [List.length_dropLast, List.length_cons] at this ⊢
      omega
termination_by p => p.length
decreasing_by
  simp only [List.length_dropLast, List.length_cons]
  omega

/-- An anonymous `package.json` at the file-system root starves the fuel:
the locator returns `none` for every fuel. -/
theorem getClosestPackageGo_root_anon {fs : FS} {pkg : Pkg}
    (hroot : fs [] = some (some pkg)) (hanon : pkg.name = "") :
    ∀ fuel, getClosestPackageGo fs fuel [] = none
  | 0 => rfl
  | fuel + 1 => by
    have hfr : findRoot fs [] = some [] := by
      rw [findRoot_nil, if_pos (by simp [hroot])]
    simp only [getClosestPackageGo, hfr, hroot, if_pos hanon]
    exact getClosestPackageGo_root_anon hroot hanon fuel

/-- The locator worker is fuel-irrelevant above the path length. -/
theorem getClosestPackageGo_congr (fs : FS) : ∀ (f₁ f₂ : Nat) (p : List String),
    p.length < f₁ → p.length < f₂ →
    getClosestPackageGo fs f₁ p = getClosestPackageGo fs f₂ p
  | 0, _, p, h₁, _ => absurd h₁ (by omega)
  | _ + 1, 0, p, _, h₂ => absurd h₂ (by omega)
  | f₁ + 1, f₂ + 1, p, h₁, h₂ => by
    simp only [getClosestPackageGo]
    match hfr : findRoot fs p with
    | none => simp only [hfr]
    | some root =>
      simp only [hfr]
      match hfsr : fs root with
      | none => simp only [hfsr]
      | some none => simp only [hfsr]
      | some (some pkg) =>
        simp only [hfsr]
        by_cases hanon : pkg.name = ""
        · simp only [if_pos hanon]
          match root, hfsr with
          | [], hfsr =>
            rw [show ([] : List String).dropLast = [] from rfl,
              getClosestPackageGo_root_anon hfsr hanon f₁,
              getClosestPackageGo_root_anon hfsr hanon f₂]
          | s :: t, hfsr =>
            have hrl : (s :: t).length ≤ p.length := findRoot_length fs p _ hfr
            apply getClosestPackageGo_congr fs f₁ f₂
            · simp only [List.length_dropLast, List.length_cons] at hrl ⊢
              omega
            · simp only [List.length_dropLast, List.length_cons] at hrl ⊢
              omega
        · simp only [if_neg hanon]

/-- One-step unfolding of the locator, fuel-free. -/
theorem getClosestPackage_eq (fs : FS) (p : List String) :
    getClosestPackage fs p =
      match findRoot fs p with
      | none => none
      | some root =>
        match fs root with
        | none => none
        | some none => none
        | some (some pkg) =>
          if pkg.name = "" then getClosestPackage fs root.dropLast
          else some { pkg := pkg, path := root } := by
  rw [getClosestPackage]
  simp only [getClosestPackageGo]
  match hfr : findRoot fs p with
  | none => simp only [hfr]
  | some root =>
    simp only [hfr]
    match hfsr : fs root with
    | none => simp only [hfsr]
    | some none => simp only [hfsr]
    | some (some pkg) =>
      simp only [hfsr]
      by_cases hanon : pkg.name = ""
      · simp only [if_pos hanon]
        match root, hfsr with
        | [], hfsr =>
          rw [show ([] : List String).dropLast = [] from rfl,
            getClosestPackageGo_root_anon hfsr hanon p.length,
            getClosestPackage, getClosestPackageGo_root_anon hfsr hanon]
        | s :: t, hfsr =>
          have hrl : (s :: t).length ≤ p.length := findRoot_length fs p _ hfr
          rw [getClosestPackage]
          apply getClosestPackageGo_congr fs
          · simp only [List.length_dropLast, List.length_cons] at hrl ⊢
            omega
          · simp only [List.length_dropLast, List.length_cons]
            omega
      · simp only [if_neg hanon]

/-- A module path with no metadata of its own locates like its parent. -/
theorem getClosestPackage_cons_none (fs : FS) (s : String) (t : List String)
    (h : fs (s :: t) = none) :
    getClosestPackage fs (s :: t) = getClosestPackage fs ((s :: t).dropLast) := by
  have hfr : findRoot fs (s :: t) = findRoot fs ((s :: t).dropLast) := by
    rw [findRoot_cons, if_neg (by simp [h])]
  rw [getClosestPackage_eq fs (s :: t), getClosestPackage_eq fs ((s :: t).dropLast), hfr]

/-- Under a fully parsable file system, the locator returns exactly the
nearest named ancestor. -/
theorem getClosestPackage_eq_nearestNamed (fs : FS)
    (hpar : ∀ q m, fs q = some m → m.isSome) :
    ∀ p : List String, getClosestPackage fs p = nearestNamed fs p
  | [] => by
    rw [nearestNamed_nil]
    by_cases hfp : (fs []).isSome
    · obtain ⟨m, hm⟩ := Option.isSome_iff_exists.mp hfp
      obtain ⟨pkg, hpkg⟩ := Option.isSome_iff_exists.mp (hpar [] m hm)
      subst hpkg
      by_cases hanon : pkg.name = ""
      · rw [show getClosestPackage fs [] = getClosestPackageGo fs 1 [] from rfl,
          getClosestPackageGo_root_anon hm hanon 1]
        simp only [isNamed, hm, if_pos hanon]
      · have hfr : findRoot fs [] = some [] := by
          rw [findRoot_nil, if_pos hfp]
        rw [getClosestPackage_eq]
        simp only [hfr, hm, if_neg hanon]
        simp only [isNamed, hm, if_neg hanon]
    · have hfpn : fs [] = none := Option.not_isSome_iff_eq_none.mp hfp
      have hfr : findRoot fs [] = none := by
        rw [findRoot_nil, if_neg (by simp [hfpn])]
      rw [getClosestPackage_eq]
      simp only [hfr]
      simp only [isNamed, hfpn]
  | s :: t => by
    rw [nearestNamed_cons]
    by_cases hfp : (fs (s :: t)).isSome
    · obtain ⟨m, hm⟩ := Option.isSome_iff_exists.mp hfp
      obtain ⟨pkg, hpkg⟩ := Option.isSome_iff_exists.mp (hpar (s :: t) m hm)
      subst hpkg
      have hfr : findRoot fs (s :: t) = some (s :: t) := by
        rw [findRoot_cons, if_pos hfp]
      rw [getClosestPackage_eq]
      simp only [hfr, hm]
      by_cases hanon : pkg.name = ""
      · simp only [if_pos hanon]
        rw [show isNamed fs (s :: t) = none from by
          simp only [isNamed, hm, if_pos hanon]]
        exact getClosestPackage_eq_nearestNamed fs hpar ((s :: t).dropLast)
      · simp only [if_neg hanon]
        rw [show isNamed fs (s :: t) = some { pkg := pkg, path := s :: t } from by
          simp only [isNamed, hm, if_neg hanon]]
    · have hfpn : fs (s :: t) = none := Option.not_isSome_iff_eq_none.mp hfp
      rw [getClosestPackage_cons_none fs s t hfpn,
        show isNamed fs (s :: t) = none from by simp only [isNamed, hfpn]]
      exact getClosestPackage_eq_nearestNamed fs hpar ((s :: t).dropLast)
termination_by p => p.length
decreasing_by
  all_goals simp only [List.length_dropLast, List.length_cons]
  all_goals omega

/-- **C7**: the package locator returns `none` when no metadata is found or
the found metadata does not parse; when the nearest metadata parses but has
no non-empty `name`, it retries one directory above the found root; and
under a fully parsable file system it returns exactly the identity of the
nearest ancestor package with a name (or `none` when no named ancestor
exists). -/
theorem getClosestPackage_locator (fs : FS) (p : List String) :
    (findRoot fs p = none → getClosestPackage fs p = none) ∧
      (∀ root, findRoot fs p = some root → fs root = some none →
        getClosestPackage fs p = none) ∧
      (∀ root pkg, findRoot fs p = some root → fs root = some (some pkg) →
        pkg.name = "" →
        getClosestPackage fs p = getClosestPackage fs root.dropLast) ∧
      ((∀ q m, fs q = some m → m.isSome) →
        getClosestPackage fs p = nearestNamed fs p) := by
  refine ⟨?_, ?_, ?_, fun h => getClosestPackage_eq_nearestNamed fs h p⟩
  · intro h
    rw [getClosestPackage_eq]
    simp only [h]
  · intro root h hr
    rw [getClosestPackage_eq]
    simp only [h, hr]
  · intro root pkg h hr hanon
    rw [getClosestPackage_eq]
    simp only [h, hr, if_pos hanon]

/-- Every metadata file of `fsW` parses. -/
theorem fsW_parses : ∀ q m, fsW q = some m → m.isSome := by
  intro q m h
  rw [fsW] at h
  split_ifs at h <;> (cases h; rfl)

/-- **C7 witness**: on `fsW`, locating from `/a/b/c` walks past the
anonymous metadata at `/a/b` and returns the named ancestor `lib@1.0.0`
at `/a`. -/
theorem getClosestPackage_locator_witness :
    (∀ q m, fsW q = some m → m.isSome) ∧
      getClosestPackage fsW ["a", "b", "c"] = nearestNamed fsW ["a", "b", "c"] ∧
      nearestNamed fsW ["a", "b", "c"] =
        some { pkg := { name := "lib", version := "1.0.0" }, path := ["a"] } := by
  refine ⟨fsW_parses,
    (getClosestPackage_locator fsW ["a", "b", "c"]).2.2.2 fsW_parses, ?_⟩
  rw [nearestNamed_cons,
    show isNamed fsW ["a", "b", "c"] = none from rfl,
    show (["a", "b", "c"] : List String).dropLast = ["a", "b"] from rfl,
    nearestNamed_cons,
    show isNamed fsW ["a", "b"] = none from rfl,
    show (["a", "b"] : List String).dropLast = ["a"] from rfl,
    nearestNamed_cons]
  rfl

/-- `processModule` through the resolution view. -/
theorem processModule_eq (gcp : Gcp) (context : String)
    (map : List (String × List Entry)) (m : WModule) :
    processModule gcp context map m =
      match resolvesTo gcp m with
      | none => map
      | some cp =>
        updateMap cp.pkg.name
          (insertModuleEntry cp.pkg.version
            (cleanPathRelativeToContext context cp.path)
            (issuerResourceOf context m) (issuerPathOf gcp m)) map := by
  rw [processModule, resolvesTo]
  match m.resource with
  | none => rfl
  | some r =>
    match gcp r with
    | none => rfl
    | some cp => rfl

/-- `updateMap` at the updated key. -/
theorem alookup_updateMap_self (name : String) (f : List Entry → List Entry) :
    ∀ map, alookup name (updateMap name f map) =
      some (f ((alookup name map).getD []))
  | [] => by simp [updateMap, alookup]
  | (k, v) :: rest => by
    by_cases hk : k = name
    · subst hk
      simp [updateMap, alookup]
    · rw [updateMap, if_neg hk, alookup, if_neg hk, alookup, if_neg hk]
      exact alookup_updateMap_self name f rest

/-- `updateMap` at another key. -/
theorem alookup_updateMap_other {name name' : String} (h : name' ≠ name)
    (f : List Entry → List Entry) :
    ∀ map, alookup name' (updateMap name f map) = alookup name' map
  | [] => by simp [updateMap, alookup, Ne.symm h]
  | (k, v) :: rest => by
    by_cases hk : k = name
    · subst hk
      rw [updateMap, if_pos rfl, alookup, if_neg (Ne.symm h), alookup,
        if_neg (Ne.symm h)]
    · rw [updateMap, if_neg hk, alookup, alookup]
      by_cases h2 : k = name'
      · rw [if_pos h2, if_pos h2]
      · rw [if_neg h2, if_neg h2]
        exact alookup_updateMap_other h f rest

/-- `findv` on the empty list. -/
theorem findv_nil (v : String) : findv v [] = none := rfl

/-- `findv` step. -/
theorem findv_cons (v : String) (e : Entry) (rest : List Entry) :
    findv v (e :: rest) = if e.version = v then some e else findv v rest := rfl

/-- `insertModuleEntry` on the empty list. -/
theorem insertModuleEntry_nil (v path : String) (missuer ip : Option String) :
    insertModuleEntry v path missuer ip [] =
      [addIssuerPath ip
        { version := v, path := path, issuer := missuer, issuerPaths := [] }] := rfl

/-- `insertModuleEntry` step. -/
theorem insertModuleEntry_cons (v path : String) (missuer ip : Option String)
    (e : Entry) (rest : List Entry) :
    insertModuleEntry v path missuer ip (e :: rest) =
      if e.version = v then addIssuerPath ip e :: rest
      else e :: insertModuleEntry v path missuer ip rest := rfl

/-- `addIssuerPath` preserves everything but `issuerPaths`, which it
extends by the new path when absent. -/
theorem addIssuerPath_fields (ip : Option String) (e : Entry) :
    (addIssuerPath ip e).version = e.version ∧
      (addIssuerPath ip e).path = e.path ∧
      (addIssuerPath ip e).issuer = e.issuer ∧
      (addIssuerPath ip e).issuerPaths =
        (match ip with
          | none => e.issuerPaths
          | some p => pushNew e.issuerPaths p) := by
  cases ip with
  | none => exact ⟨rfl, rfl, rfl, rfl⟩
  | some p =>
    simp only [addIssuerPath, pushNew]
    split_ifs <;> exact ⟨rfl, rfl, rfl, rfl⟩

/-- `insertModuleEntry` found or appended, seen through `findv` at the
inserted version. -/
theorem findv_insertModuleEntry_self (v path : String) (missuer ip : Option String) :
    ∀ l, findv v (insertModuleEntry v path missuer ip l) =
      some (addIssuerPath ip ((findv v l).getD
        { version := v, path := path, issuer := missuer, issuerPaths := [] }))
  | [] => by
    have h1 := (addIssuerPath_fields ip
      { version := v, path := path, issuer := missuer, issuerPaths := [] }).1
    rw [insertModuleEntry_nil, findv_cons, if_pos h1, findv_nil]
    rfl
  | e :: rest => by
    by_cases hv : e.version = v
    · have h2 := (addIssuerPath_fields ip e).1
      rw [insertModuleEntry_cons, if_pos hv, findv_cons, if_pos (h2.trans hv),
        findv_cons, if_pos hv]
      rfl
    · rw [insertModuleEntry_cons, if_neg hv, findv_cons, if_neg hv,
        findv_cons, if_neg hv]
      exact findv_insertModuleEntry_self v path missuer ip rest

/-- `insertModuleEntry` leaves other versions' entries alone. -/
theorem findv_insertModuleEntry_other {v v' : String} (hv : v' ≠ v)
    (path : String) (missuer ip : Option String) :
    ∀ l, findv v' (insertModuleEntry v path missuer ip l) = findv v' l
  | [] => by
    have h1 := (addIssuerPath_fields ip
      { version := v, path := path, issuer := missuer, issuerPaths := [] }).1
    rw [insertModuleEntry_nil, findv_cons, if_neg (by rw [h1]; exact Ne.symm hv)]
  | e :: rest => by
    by_cases hev : e.version = v
    · have h2 := (addIssuerPath_fields ip e).1
      rw [insertModuleEntry_cons, if_pos hev, findv_cons, h2, findv_cons,
        if_neg (by rw [hev]; exact Ne.symm hv),
        if_neg (by rw [hev]; exact Ne.symm hv)]
    · rw [insertModuleEntry_cons, if_neg hev, findv_cons, findv_cons]
      by_cases h2 : e.version = v'
      · rw [if_pos h2, if_pos h2]
      · rw [if_neg h2, if_neg h2]
        exact findv_insertModuleEntry_other hv path missuer ip rest

/-- The version list after an insert is the dedup-push of the version. -/
theorem versions_insertModuleEntry (v path : String) (missuer ip : Option String) :
    ∀ l, (insertModuleEntry v path missuer ip l).map Entry.version =
      pushNew (l.map Entry.version) v
  | [] => by
    have h1 := (addIssuerPath_fields ip
      { version := v, path := path, issuer := missuer, issuerPaths := [] }).1
    rw [insertModuleEntry_nil, pushNew, if_neg (by simp)]
    simp [h1]
  | e :: rest => by
    by_cases hv : e.version = v
    · rw [insertModuleEntry_cons, if_pos hv, pushNew, if_pos (by simp [hv]),
        List.map_cons, List.map_cons, (addIssuerPath_fields ip e).1]
    · rw [insertModuleEntry_cons, if_neg hv, List.map_cons,
        versions_insertModuleEntry v path missuer ip rest, List.map_cons,
        pushNew, pushNew]
      by_cases hmem : v ∈ rest.map Entry.version
      · rw [if_pos hmem, if_pos (by simp [hmem])]
      · rw [if_neg hmem, if_neg (by simp [hmem, Ne.symm hv]), List.cons_append]

/-- `addIssuerPath` as a record update. -/
theorem addIssuerPath_eq (ip : Option String) (e : Entry) :
    addIssuerPath ip e =
      { e with issuerPaths :=
          (match ip with
            | none => e.issuerPaths
            | some p => pushNew e.issuerPaths p) } := by
  cases ip with
  | none => rfl
  | some p =>
    simp only [addIssuerPath, pushNew]
    split_ifs <;> rfl

/-- Membership in a dedup push. -/
theorem mem_pushNew {l : List String} {p x : String} :
    x ∈ pushNew l p ↔ x ∈ l ∨ x = p := by
  rw [pushNew]
  split_ifs with h
  · constructor
    · exact Or.inl
    · rintro (hx | rfl)
      · exact hx
      · exact h
  · simp

/-- A dedup push preserves `Nodup`. -/
theorem pushNew_nodup {l : List String} {p : String} (h : l.Nodup) :
    (pushNew l p).Nodup := by
  rw [pushNew]
  split_ifs with hmem
  · exact h
  · simp [List.nodup_append, h, hmem]

/-- Folding dedup pushes preserves `Nodup`. -/
theorem foldl_pushNew_nodup : ∀ (xs vs : List String), vs.Nodup →
    (xs.foldl pushNew vs).Nodup
  | [], vs, h => h
  | x :: xs, vs, h => foldl_pushNew_nodup xs (pushNew vs x) (pushNew_nodup h)

/-- Membership after folding dedup pushes. -/
theorem mem_foldl_pushNew : ∀ (xs vs : List String) (x : String),
    x ∈ xs.foldl pushNew vs ↔ x ∈ vs ∨ x ∈ xs
  | [], vs, x => by simp
  | y :: xs, vs, x => by
    rw [List.foldl_cons, mem_foldl_pushNew xs (pushNew vs y) x, mem_pushNew]
    simp [or_assoc, List.mem_cons]

/-- Membership in the accumulated issuer paths. -/
theorem mem_accPaths : ∀ (ips : List (Option String)) (l : List String) (x : String),
    x ∈ accPaths l ips ↔ x ∈ l ∨ some x ∈ ips
  | [], l, x => by simp [accPaths]
  | none :: ips, l, x => by
    rw [accPaths, mem_accPaths ips l x]
    simp
  | some p :: ips, l, x => by
    rw [accPaths, mem_accPaths ips (pushNew l p) x, mem_pushNew]
    constructor
    · rintro ((h | rfl) | h)
      · exact Or.inl h
      · exact Or.inr (List.mem_cons_self _ _)
      · exact Or.inr (List.mem_cons_of_mem _ h)
    · rintro (h | h)
      · exact Or.inl (Or.inl h)
      · rcases List.mem_cons.mp h with h | h
        · exact Or.inl (Or.inr (by simpa using h))
        · exact Or.inr h

/-- Accumulating issuer paths preserves `Nodup`. -/
theorem accPaths_nodup : ∀ (ips : List (Option String)) (l : List String),
    l.Nodup → (accPaths l ips).Nodup
  | [], l, h => h
  | none :: ips, l, h => accPaths_nodup ips l h
  | some p :: ips, l, h => accPaths_nodup ips (pushNew l p) (pushNew_nodup h)

/-- The versions of a per-name fold are the dedup pushes of the
contributions' versions. -/
theorem versions_foldl : ∀ (infos : List ModInfo) (l : List Entry),
    ((infos.foldl applyInfo l).map Entry.version) =
      (infos.map ModInfo.version).foldl pushNew (l.map Entry.version)
  | [], l => rfl
  | i :: infos, l => by
    rw [List.foldl_cons, List.map_cons, List.foldl_cons,
      versions_foldl infos (applyInfo l i)]
    rw [show applyInfo l i =
      insertModuleEntry i.version i.path i.issuer i.issuerPath l from rfl]
    rw [versions_insertModuleEntry]

/-- A found entry survives the per-name fold, accumulating exactly the
issuer paths of the later contributions at its version. -/
theorem findv_foldl_some : ∀ (infos : List ModInfo) (l : List Entry) (v : String)
    (e : Entry), findv v l = some e →
    findv v (infos.foldl applyInfo l) =
      some (entryAfter e (infos.filter (fun i => i.version = v)))
  | [], l, v, e, h => by
    rw [List.foldl_nil, h, List.filter_nil]
    rw [show entryAfter e [] = { e with issuerPaths := accPaths e.issuerPaths [] }
      from rfl, accPaths]
  | i :: infos, l, v, e, h => by
    rw [List.foldl_cons]
    by_cases hv : i.version = v
    · have hl' : findv v (applyInfo l i) = some (addIssuerPath i.issuerPath e) := by
        rw [show applyInfo l i =
          insertModuleEntry i.version i.path i.issuer i.issuerPath l from rfl, hv,
          findv_insertModuleEntry_self, h]
        rfl
      rw [findv_foldl_some infos (applyInfo l i) v _ hl',
        List.filter_cons_of_pos (by simp [hv])]
      rw [entryAfter, entryAfter, addIssuerPath_eq, List.map_cons]
      cases hip : i.issuerPath with
      | none => rw [accPaths]
      | some p => rw [accPaths]
    · have hl' : findv v (applyInfo l i) = some e := by
        rw [show applyInfo l i =
          insertModuleEntry i.version i.path i.issuer i.issuerPath l from rfl,
          findv_insertModuleEntry_other (fun hh => hv hh.symm), h]
      rw [findv_foldl_some infos (applyInfo l i) v e hl',
        List.filter_cons_of_neg (by simp [hv])]

/-- A version absent from the start list is created by its first
contribution (keeping that contribution's path and issuer) and accumulates
the issuer paths of every contribution at the version. -/
theorem findv_foldl_none : ∀ (infos : List ModInfo) (l : List Entry) (v : String),
    findv v l = none →
    findv v (infos.foldl applyInfo l) =
      (match infos.filter (fun i => i.version = v) with
        | [] => none
        | i :: fl => some (freshEntry v i fl))
  | [], l, v, h => by
    rw [List.foldl_nil, h, List.filter_nil]
  | i :: infos, l, v, h => by
    rw [List.foldl_cons]
    by_cases hv : i.version = v
    · have hl' : findv v (applyInfo l i) =
          some (addIssuerPath i.issuerPath
            { version := v, path := i.path, issuer := i.issuer, issuerPaths := [] }) := by
        rw [show applyInfo l i =
          insertModuleEntry i.version i.path i.issuer i.issuerPath l from rfl, hv,
          findv_insertModuleEntry_self, h]
        rfl
      rw [findv_foldl_some infos (applyInfo l i) v _ hl',
        List.filter_cons_of_pos (by simp [hv])]
      show some _ = some (freshEntry v i (infos.filter (fun i => i.version = v)))
      rw [entryAfter, addIssuerPath_eq, freshEntry, List.map_cons]
      cases hip : i.issuerPath with
      | none => rw [accPaths]
      | some p => rw [accPaths]
    · have hl' : findv v (applyInfo l i) = none := by
        rw [show applyInfo l i =
          insertModuleEntry i.version i.path i.issuer i.issuerPath l from rfl,
          findv_insertModuleEntry_other (fun hh => hv hh.symm), h]
      rw [findv_foldl_none infos (applyInfo l i) v hl',
        List.filter_cons_of_neg (by simp [hv])]

/-- The name's entry list through the aggregation fold, starting from a
map that already has the name. -/
theorem alookup_foldl_some (gcp : Gcp) (context : String) (name : String) :
    ∀ (mods : List WModule) (map : List (String × List Entry)) (l : List Entry),
      alookup name map = some l →
      alookup name (mods.foldl (processModule gcp context) map) =
        some ((mods.filterMap (infoFor gcp context name)).foldl applyInfo l)
  | [], map, l, h => by simpa using h
  | m :: rest, map, l, h => by
    rw [List.foldl_cons, List.filterMap_cons]
    match hres : resolvesTo gcp m with
    | none =>
      have hinfo : infoFor gcp context name m = none := by rw [infoFor, hres]
      have hmap : processModule gcp context map m = map := by
        rw [processModule_eq, hres]
      rw [hinfo, hmap]
      exact alookup_foldl_some gcp context name rest map l h
    | some cp =>
      have hproc : processModule gcp context map m =
          updateMap cp.pkg.name
            (insertModuleEntry cp.pkg.version
              (cleanPathRelativeToContext context cp.path)
              (issuerResourceOf context m) (issuerPathOf gcp m)) map := by
        rw [processModule_eq, hres]
      by_cases hname : cp.pkg.name = name
      · have hinfo : infoFor gcp context name m = some (modInfo gcp context m cp) := by
          simp only [infoFor, hres, if_pos hname]
        rw [hinfo]
        subst hname
        have hup : alookup cp.pkg.name (processModule gcp context map m) =
            some (applyInfo l (modInfo gcp context m cp)) := by
          rw [hproc, alookup_updateMap_self, h]
          rfl
        rw [List.foldl_cons]
        exact alookup_foldl_some gcp context cp.pkg.name rest _ _ hup
      · have hinfo : infoFor gcp context name m = none := by
          simp only [infoFor, hres, if_neg hname]
        rw [hinfo]
        have hup : alookup name (processModule gcp context map m) = some l := by
          rw [hproc, alookup_updateMap_other (Ne.symm hname)]
          exact h
        exact alookup_foldl_some gcp context name rest _ _ hup

/-- The name's entry list through the aggregation fold, starting from a
map without the name. -/
theorem alookup_foldl_none (gcp : Gcp) (context : String) (name : String) :
    ∀ (mods : List WModule) (map : List (String × List Entry)),
      alookup name map = none →
      alookup name (mods.foldl (processModule gcp context) map) =
        (if mods.filterMap (infoFor gcp context name) = [] then none
          else some (aggName (mods.filterMap (infoFor gcp context name))))
  | [], map, h => by simpa using h
  | m :: rest, map, h => by
    rw [List.foldl_cons, List.filterMap_cons]
    match hres : resolvesTo gcp m with
    | none =>
      have hinfo : infoFor gcp context name m = none := by rw [infoFor, hres]
      have hmap : processModule gcp context map m = map := by
        rw [processModule_eq, hres]
      rw [hinfo, hmap]
      exact alookup_foldl_none gcp context name rest map h
    | some cp =>
      have hproc : processModule gcp context map m =
          updateMap cp.pkg.name
            (insertModuleEntry cp.pkg.version
              (cleanPathRelativeToContext context cp.path)
              (issuerResourceOf context m) (issuerPathOf gcp m)) map := by
        rw [processModule_eq, hres]
      by_cases hname : cp.pkg.name = name
      · have hinfo : infoFor gcp context name m = some (modInfo gcp context m cp) := by
          simp only [infoFor, hres, if_pos hname]
        rw [hinfo]
        subst hname
        have hup : alookup cp.pkg.name (processModule gcp context map m) =
            some (applyInfo [] (modInfo gcp context m cp)) := by
          rw [hproc, alookup_updateMap_self, h]
          rfl
        rw [if_neg (by simp), aggName, List.foldl_cons]
        exact alookup_foldl_some gcp context cp.pkg.name rest _ _ hup
      · have hinfo : infoFor gcp context name m = none := by
          simp only [infoFor, hres, if_neg hname]
        rw [hinfo]
        have hup : alookup name (processModule gcp context map m) = none := by
          rw [hproc, alookup_updateMap_other (Ne.symm hname)]
          exact h
        exact alookup_foldl_none gcp context name rest _ hup

/-- Extensional characterization of the aggregated map at a name. -/
theorem alookup_aggregateModules (gcp : Gcp) (context : String)
    (mods : List WModule) (name : String) :
    alookup name (aggregateModules gcp context mods) =
      (if infosOf gcp context mods name = [] then none
        else some (aggName (infosOf gcp context mods name))) := by
  rw [aggregateModules, infosOf]
  exact alookup_foldl_none gcp context name mods [] rfl

/-- The versions of an aggregated entry list are duplicate-free. -/
theorem aggName_versions_nodup (infos : List ModInfo) :
    ((aggName infos).map Entry.version).Nodup := by
  rw [aggName, versions_foldl]
  exact foldl_pushNew_nodup _ _ (by simp)

/-- The instance list aggregated at a name has pairwise-distinct
versions. -/
theorem aggregate_versions_nodup (gcp : Gcp) (context : String)
    (mods : List WModule) (name : String) (l : List Entry)
    (hl : alookup name (aggregateModules gcp context mods) = some l) :
    (l.map Entry.version).Nodup := by
  rw [alookup_aggregateModules] at hl
  by_cases hz : infosOf gcp context mods name = []
  · rw [if_pos hz] at hl
    exact absurd hl (by simp)
  · rw [if_neg hz] at hl
    have he : l = aggName (infosOf gcp context mods name) :=
      (Option.some.inj hl).symm
    subst he
    exact aggName_versions_nodup _

/-- Every version of an aggregated entry list is a contributed version. -/
theorem aggName_versions_sub (infos : List ModInfo) :
    ∀ v ∈ (aggName infos).map Entry.version, v ∈ infos.map ModInfo.version := by
  intro v hv
  rw [aggName, versions_foldl] at hv
  rcases (mem_foldl_pushNew _ _ v).mp hv with h | h
  · simp at h
  · exact h

/-- An entry of a version-duplicate-free list is what `findv` finds at its
version. -/
theorem findv_of_mem : ∀ (l : List Entry), (l.map Entry.version).Nodup →
    ∀ e ∈ l, findv e.version l = some e
  | [], _, e, he => by simp at he
  | e' :: rest, hnd, e, he => by
    rw [List.map_cons, List.nodup_cons] at hnd
    rcases List.mem_cons.mp he with rfl | he
    · rw [findv_cons, if_pos rfl]
    · have hne : e'.version ≠ e.version := by
        intro hh
        exact hnd.1 (hh ▸ List.mem_map.mpr ⟨e, he, rfl⟩)
      rw [findv_cons, if_neg hne]
      exact findv_of_mem rest hnd.2 e he

/-- Conversely, what `findv` finds is a member. -/
theorem mem_of_findv : ∀ {l : List Entry} {v : String} {e : Entry},
    findv v l = some e → e ∈ l ∧ e.version = v := by
  intro l
  induction l with
  | nil => intro v e h; simp [findv] at h
  | cons e' rest ih =>
    intro v e h
    rw [findv_cons] at h
    by_cases hv : e'.version = v
    · rw [if_pos hv] at h
      cases h
      exact ⟨List.mem_cons_self _ _, hv⟩
    · rw [if_neg hv] at h
      obtain ⟨hmem, hver⟩ := ih h
      exact ⟨List.mem_cons_of_mem _ hmem, hver⟩

/-- Inserting an absent version appends a fresh entry at the end. -/
theorem insertModuleEntry_append (v path : String) (missuer ip : Option String) :
    ∀ l, findv v l = none →
      insertModuleEntry v path missuer ip l =
        l ++ [addIssuerPath ip
          { version := v, path := path, issuer := missuer, issuerPaths := [] }]
  | [], _ => by rw [insertModuleEntry_nil, List.nil_append]
  | e :: rest, h => by
    rw [findv_cons] at h
    by_cases hv : e.version = v
    · rw [if_pos hv] at h
      exact absurd h (by simp)
    · rw [if_neg hv] at h
      rw [insertModuleEntry_cons, if_neg hv,
        insertModuleEntry_append v path missuer ip rest h, List.cons_append]

/-- An added issuer path is recorded. -/
theorem mem_addIssuerPath (p : String) (e : Entry) :
    p ∈ (addIssuerPath (some p) e).issuerPaths := by
  rw [addIssuerPath_eq]
  exact mem_pushNew.mpr (Or.inr rfl)

/-- **C8**: invariants of the package-instance map.  In the aggregated map,
every name's entry list has pairwise-distinct versions and every entry has
pairwise-distinct issuer paths; and one aggregation step for a module that
resolves to package `cp` touches only `cp`'s name, touches only the entry
at `cp`'s version, appends a fresh instance when the version is absent, and
otherwise keeps the first-seen entry (never replacing it, only adding the
module's rendered issuer path, which is recorded whenever present). -/
theorem aggregation_invariants (gcp : Gcp) (context : String) :
    (∀ (mods : List WModule) (name : String) (l : List Entry),
      alookup name (aggregateModules gcp context mods) = some l →
        (l.map Entry.version).Nodup ∧ ∀ e ∈ l, e.issuerPaths.Nodup) ∧
    (∀ (map : List (String × List Entry)) (m : WModule) (r : String)
        (cp : ClosestPackage), m.resource = some r → gcp r = some cp →
      (∀ name', name' ≠ cp.pkg.name →
        alookup name' (processModule gcp context map m) = alookup name' map) ∧
      (alookup cp.pkg.name (processModule gcp context map m)).getD [] =
        insertModuleEntry cp.pkg.version
          (cleanPathRelativeToContext context cp.path)
          (issuerResourceOf context m) (issuerPathOf gcp m)
          ((alookup cp.pkg.name map).getD []) ∧
      (∀ v', v' ≠ cp.pkg.version →
        findv v' ((alookup cp.pkg.name (processModule gcp context map m)).getD []) =
          findv v' ((alookup cp.pkg.name map).getD [])) ∧
      (findv cp.pkg.version ((alookup cp.pkg.name map).getD []) = none →
        (alookup cp.pkg.name (processModule gcp context map m)).getD [] =
          ((alookup cp.pkg.name map).getD []) ++
            [addIssuerPath (issuerPathOf gcp m)
              { version := cp.pkg.version
                path := cleanPathRelativeToContext context cp.path
                issuer := issuerResourceOf context m
                issuerPaths := [] }]) ∧
      (∀ e, findv cp.pkg.version ((alookup cp.pkg.name map).getD []) = some e →
        findv cp.pkg.version
            ((alookup cp.pkg.name (processModule gcp context map m)).getD []) =
          some (addIssuerPath (issuerPathOf gcp m) e)) ∧
      (∀ ip e', issuerPathOf gcp m = some ip →
        findv cp.pkg.version
            ((alookup cp.pkg.name (processModule gcp context map m)).getD []) =
          some e' →
        ip ∈ e'.issuerPaths)) := by
  constructor
  · intro mods name l hl
    rw [alookup_aggregateModules] at hl
    by_cases hinf : infosOf gcp context mods name = []
    · rw [if_pos hinf] at hl
      exact absurd hl (by simp)
    · rw [if_neg hinf] at hl
      have hl' : l = aggName (infosOf gcp context mods name) := by
        simpa using hl.symm
      subst hl'
      refine ⟨aggName_versions_nodup _, fun e he => ?_⟩
      have hfind := findv_of_mem _ (aggName_versions_nodup _) e he
      rw [aggName, findv_foldl_none _ _ _ (findv_nil _)] at hfind
      match hfl : (infosOf gcp context mods name).filter
          (fun i => i.version = e.version) with
      | [] => rw [hfl] at hfind; exact absurd hfind (by simp)
      | i :: fl =>
        rw [hfl] at hfind
        have he' : e = freshEntry e.version i fl := by simpa using hfind.symm
        rw [he', freshEntry]
        exact accPaths_nodup _ _ (by simp)
  · intro map m r cp hres hgcp
    have hres' : resolvesTo gcp m = some cp := by
      simp only [resolvesTo, hres, hgcp]
    have hproc : processModule gcp context map m =
        updateMap cp.pkg.name
          (insertModuleEntry cp.pkg.version
            (cleanPathRelativeToContext context cp.path)
            (issuerResourceOf context m) (issuerPathOf gcp m)) map := by
      rw [processModule_eq, hres']
    have hself : (alookup cp.pkg.name (processModule gcp context map m)).getD [] =
        insertModuleEntry cp.pkg.version
          (cleanPathRelativeToContext context cp.path)
          (issuerResourceOf context m) (issuerPathOf gcp m)
          ((alookup cp.pkg.name map).getD []) := by
      rw [hproc, alookup_updateMap_self]
      rfl
    refine ⟨?_, hself, ?_, ?_, ?_, ?_⟩
    · intro name' hname'
      rw [hproc, alookup_updateMap_other hname']
    · intro v' hv'
      rw [hself, findv_insertModuleEntry_other hv']
    · intro hnone
      rw [hself, insertModuleEntry_append _ _ _ _ _ hnone]
    · intro e he
      rw [hself, findv_insertModuleEntry_self, he]
      rfl
    · intro ip e' hip he'
      rw [hself, findv_insertModuleEntry_self, hip] at he'
      have he2 : e' = addIssuerPath (some ip)
          ((findv cp.pkg.version ((alookup cp.pkg.name map).getD [])).getD
            { version := cp.pkg.version
              path := cleanPathRelativeToContext context cp.path
              issuer := issuerResourceOf context m
              issuerPaths := [] }) := by
        simpa using he'.symm
      rw [he2]
      exact mem_addIssuerPath ip _

/-- **C8 witness**: the step characterization applied to a concrete module
resolving to `a@1.0.0` over the empty map. -/
theorem aggregation_invariants_witness :
    (WModule.mk (some "x.js") none).resource = some "x.js" ∧
      gcp8 "x.js" =
        some { pkg := { name := "a", version := "1.0.0" }, path := "/pa" } ∧
      (∀ name', name' ≠ "a" →
        alookup name' (processModule gcp8 "/ctx" [] (WModule.mk (some "x.js") none)) =
          alookup name' []) := by
  refine ⟨rfl, rfl, ?_⟩
  intro name' hname'
  exact (((aggregation_invariants gcp8 "/ctx").2 []
    (WModule.mk (some "x.js") none) "x.js"
    { pkg := { name := "a", version := "1.0.0" }, path := "/pa" }
    rfl rfl).1) name' hname'

/-! ## C5: strict mode reports every multi-version package, sorted -/

/-- Assoc-list lookup of a member under unique keys. -/
theorem alookup_of_mem : ∀ {map : List (String × List Entry)} {name : String}
    {l : List Entry}, (map.map Prod.fst).Nodup → (name, l) ∈ map →
    alookup name map = some l := by
  intro map
  induction map with
  | nil => intro name l _ h; simp at h
  | cons p rest ih =>
    intro name l hnd hmem
    obtain ⟨k', l'⟩ := p
    rw [List.map_cons, List.nodup_cons] at hnd
    rcases List.mem_cons.mp hmem with h | h
    · rw [Prod.mk.injEq] at h
      rw [alookup, if_pos h.1.symm, h.2]
    · have hk' : k' ≠ name := by
        rintro rfl
        exact hnd.1 (List.mem_map.mpr ⟨(k', l), h, rfl⟩)
      rw [alookup, if_neg hk']
      exact ih hnd.2 h

/-- A successful assoc lookup is a membership. -/
theorem mem_of_alookup : ∀ {map : List (String × List Entry)} {name : String}
    {l : List Entry}, alookup name map = some l → (name, l) ∈ map := by
  intro map
  induction map with
  | nil => intro name l h; simp [alookup] at h
  | cons p rest ih =>
    intro name l h
    obtain ⟨k', l'⟩ := p
    rw [alookup] at h
    by_cases hk : k' = name
    · rw [if_pos hk] at h
      subst hk
      exact List.mem_cons.mpr (Or.inl (by simpa using h.symm))
    · rw [if_neg hk] at h
      exact List.mem_cons.mpr (Or.inr (ih h))

/-- The key list of `updateMap`. -/
theorem updateMap_keys (name : String) (f : List Entry → List Entry) :
    ∀ map : List (String × List Entry),
      (updateMap name f map).map Prod.fst =
        if name ∈ map.map Prod.fst then map.map Prod.fst
        else map.map Prod.fst ++ [name]
  | [] => by simp [updateMap]
  | (k, v) :: rest => by
    by_cases hk : k = name
    · subst hk
      simp [updateMap]
    · rw [updateMap, if_neg hk]
      simp only [List.map_cons, updateMap_keys name f rest]
      by_cases hmem : name ∈ rest.map Prod.fst
      · rw [if_pos hmem, if_pos (by simp [hmem])]
      · rw [if_neg hmem, if_neg (by simp [hmem, Ne.symm hk]), List.cons_append]

/-- `updateMap` preserves key uniqueness. -/
theorem updateMap_keys_nodup {name : String} {f : List Entry → List Entry}
    {map : List (String × List Entry)} (h : (map.map Prod.fst).Nodup) :
    ((updateMap name f map).map Prod.fst).Nodup := by
  rw [updateMap_keys]
  by_cases hmem : name ∈ map.map Prod.fst
  · rwa [if_pos hmem]
  · rw [if_neg hmem]
    simp [List.nodup_append, h, hmem]

/-- The aggregated map has unique keys. -/
theorem aggregateModules_keys_nodup (gcp : Gcp) (context : String)
    (mods : List WModule) :
    ((aggregateModules gcp context mods).map Prod.fst).Nodup := by
  rw [aggregateModules]
  have aux : ∀ (ms : List WModule) (map : List (String × List Entry)),
      (map.map Prod.fst).Nodup →
      ((ms.foldl (processModule gcp context) map).map Prod.fst).Nodup := by
    intro ms
    induction ms with
    | nil => intro map h; exact h
    | cons m rest ih =>
      intro map h
      rw [List.foldl_cons]
      apply ih
      rw [processModule_eq]
      match resolvesTo gcp m with
      | none => exact h
      | some cp => exact updateMap_keys_nodup h
  exact aux mods [] (by simp)

/-- The strict classifier body keeps every multi-instance name whole. -/
theorem classifyName_strict_none (name : String) (instances : List Entry) :
    classifyName true none name instances =
      Except.ok (if instances.length ≤ 1 then none else some instances) := by
  rw [classifyName]
  by_cases hlen : instances.length ≤ 1
  · rw [if_pos hlen, if_pos hlen]
  · rw [if_neg hlen, if_neg hlen]
    rfl

/-- Strict classification with no exclusion is exactly the multi-instance
filter of the map. -/
theorem classify_strict_none : ∀ map : List (String × List Entry),
    classify true none map = Except.ok (map.filter (fun p => 1 < p.2.length))
  | [] => rfl
  | (name, instances) :: rest => by
    rw [classify, classifyName_strict_none, classify_strict_none rest]
    by_cases hlen : instances.length ≤ 1
    · rw [if_pos hlen, List.filter_cons_of_neg (by simpa using hlen)]
    · rw [if_neg hlen,
        List.filter_cons_of_pos (by simpa using Nat.lt_of_not_le hlen)]

/-- **C5**: with the default options (strict mode, no exclusion), every
package name whose aggregated instance list has two or more (necessarily
distinct) versions is reported with all of its instances; the formatter
produces exactly one diagnostic per such name, names are pairwise distinct
and put in ascending lexicographic order, and within a diagnostic the
instances are a permutation of the aggregated ones in ascending
lexicographic order of version string. -/
theorem strict_mode_all_duplicates (gcp : Gcp) (context : String)
    (mods : List WModule) :
    classify true none (aggregateModules gcp context mods) =
      Except.ok ((aggregateModules gcp context mods).filter
        (fun p => 1 < p.2.length)) ∧
    (∀ name l, alookup name (aggregateModules gcp context mods) = some l →
      (1 < (l.map Entry.version).dedup.length ↔ 1 < l.length)) ∧
    ((sortedDuplicates ((aggregateModules gcp context mods).filter
        (fun p => 1 < p.2.length))).map Prod.fst =
      (((aggregateModules gcp context mods).filter
        (fun p => 1 < p.2.length)).map Prod.fst).insertionSort (· ≤ ·)) ∧
    ((sortedDuplicates ((aggregateModules gcp context mods).filter
        (fun p => 1 < p.2.length))).map Prod.fst).Nodup ∧
    (formatDiags false true (sortedDuplicates ((aggregateModules gcp context
        mods).filter (fun p => 1 < p.2.length)))).length =
      ((aggregateModules gcp context mods).filter
        (fun p => 1 < p.2.length)).length ∧
    (∀ q ∈ sortedDuplicates ((aggregateModules gcp context mods).filter
        (fun p => 1 < p.2.length)), ∃ l,
      alookup q.1 (aggregateModules gcp context mods) = some l ∧ 1 < l.length ∧
        q.2.Perm l ∧ q.2.Sorted (fun a b : Entry => a.version ≤ b.version)) := by
  have hknd := aggregateModules_keys_nodup gcp context mods
  have hdnd : ((((aggregateModules gcp context mods).filter
      (fun p => 1 < p.2.length))).map Prod.fst).Nodup :=
    hknd.sublist ((List.filter_sublist _).map Prod.fst)
  refine ⟨classify_strict_none _, ?_, ?_, ?_, ?_, ?_⟩
  · intro name l hl
    have hnd := aggregate_versions_nodup gcp context mods name l hl
    rw [List.Nodup.dedup hnd, List.length_map]
  · rw [sortedDuplicates, List.map_map]
    have hcomp : (Prod.fst ∘ fun name =>
        (name, sortInstances ((alookup name ((aggregateModules gcp context
          mods).filter (fun p => 1 < p.2.length))).getD []))) = id := rfl
    rw [hcomp, List.map_id]
  · rw [sortedDuplicates, List.map_map]
    have : (Prod.fst ∘ fun name =>
        (name, sortInstances ((alookup name ((aggregateModules gcp context
          mods).filter (fun p => 1 < p.2.length))).getD []))) = id := rfl
    rw [this, List.map_id]
    exact (List.perm_insertionSort _ _).nodup_iff.mpr hdnd
  · rw [formatDiags, List.length_map, List.enum_length, sortedDuplicates,
      List.length_map, (List.perm_insertionSort _ _).length_eq, List.length_map]
  · intro q hq
    rw [sortedDuplicates] at hq
    obtain ⟨name, hname, hqeq⟩ := List.mem_map.mp hq
    have hnamemem : name ∈ ((aggregateModules gcp context mods).filter
        (fun p => 1 < p.2.length)).map Prod.fst :=
      (List.perm_insertionSort _ _).mem_iff.mp hname
    obtain ⟨⟨name', l⟩, hmem, hfst⟩ := List.mem_map.mp hnamemem
    have hname' : name' = name := hfst
    subst hname'
    have hlk : alookup name' ((aggregateModules gcp context mods).filter
        (fun p => 1 < p.2.length)) = some l := alookup_of_mem hdnd hmem
    have hmem0 : (name', l) ∈ aggregateModules gcp context mods :=
      List.mem_of_mem_filter hmem
    have hlk0 : alookup name' (aggregateModules gcp context mods) = some l :=
      alookup_of_mem hknd hmem0
    have hbig : 1 < l.length := by
      have := List.of_mem_filter hmem
      simpa using this
    refine ⟨l, ?_, hbig, ?_, ?_⟩
    · rw [← hqeq]
      exact hlk0
    · rw [← hqeq]
      simp only [sortInstances, hlk, Option.getD_some]
      exact List.perm_insertionSort _ _
    · rw [← hqeq]
      simp only [sortInstances, hlk, Option.getD_some]
      exact List.sorted_insertionSort _ _

/-- **C5 witness**: the theorem applied at a concrete two-version scenario
(no hypotheses beyond the instantiation). -/
theorem strict_mode_all_duplicates_witness :
    classify true none (aggregateModules gcp8 "/ctx"
        [WModule.mk (some "x.js") none]) =
      Except.ok ((aggregateModules gcp8 "/ctx"
        [WModule.mk (some "x.js") none]).filter (fun p => 1 < p.2.length)) :=
  (strict_mode_all_duplicates gcp8 "/ctx" [WModule.mk (some "x.js") none]).1

/-! ## C3: the emit pass never throws — except on invalid semver in relaxed mode -/

/-- A resolution yields a resource and a successful `getClosestPackage`. -/
theorem resolvesTo_some {gcp : Gcp} {m : WModule} {cp : ClosestPackage}
    (h : resolvesTo gcp m = some cp) :
    ∃ r, m.resource = some r ∧ gcp r = some cp := by
  rw [resolvesTo] at h
  match hres : m.resource with
  | none => rw [hres] at h; exact absurd h (by simp)
  | some r => rw [hres] at h; exact ⟨r, rfl, h⟩

/-- Every aggregated version string was produced by the resolver. -/
theorem aggregateModules_versions_from_gcp (gcp : Gcp) (context : String)
    (mods : List WModule) (name : String) (l : List Entry)
    (hl : alookup name (aggregateModules gcp context mods) = some l) :
    ∀ e ∈ l, ∃ r cp, gcp r = some cp ∧ e.version = cp.pkg.version := by
  intro e he
  rw [alookup_aggregateModules] at hl
  by_cases hinf : infosOf gcp context mods name = []
  · rw [if_pos hinf] at hl
    exact absurd hl (by simp)
  · rw [if_neg hinf] at hl
    have hl' : l = aggName (infosOf gcp context mods name) := by simpa using hl.symm
    subst hl'
    have hv : e.version ∈ (infosOf gcp context mods name).map ModInfo.version :=
      aggName_versions_sub _ e.version (List.mem_map.mpr ⟨e, he, rfl⟩)
    obtain ⟨i, hi, hiv⟩ := List.mem_map.mp hv
    obtain ⟨m, hm, hinfo⟩ := List.mem_filterMap.mp hi
    rw [infoFor] at hinfo
    match hres : resolvesTo gcp m with
    | none =>
      simp only [hres] at hinfo
      exact absurd hinfo (by simp)
    | some cp =>
      simp only [hres] at hinfo
      by_cases hname : cp.pkg.name = name
      · rw [if_pos hname] at hinfo
        obtain ⟨r, -, hgcp⟩ := resolvesTo_some hres
        refine ⟨r, cp, hgcp, ?_⟩
        have : i = modInfo gcp context m cp := by simpa using hinfo.symm
        rw [← hiv, this]
        rfl
      · rw [if_neg hname] at hinfo
        exact absurd hinfo (by simp)

/-- The per-name classifier only fails on an unparsable version in relaxed
mode. -/
theorem classifyName_ok (strict : Bool) (ex : Option (String → Entry → Bool))
    (name : String) (instances : List Entry)
    (h : strict = true ∨ ∀ e ∈ instances, (semverMajor e.version).isSome) :
    ∃ o, classifyName strict ex name instances = Except.ok o := by
  rw [classifyName]
  by_cases hlen : instances.length ≤ 1
  · exact ⟨none, by rw [if_pos hlen]⟩
  · rw [if_neg hlen]
    have hstep : ∃ o, (if strict then Except.ok (some instances)
        else
          match groupByMajor instances with
          | Except.error e => Except.error e
          | Except.ok groups =>
            let filtered := relaxedFiltered groups
            if filtered.length ≤ 1 then Except.ok none
            else Except.ok (some filtered) :
          Except String (Option (List Entry))) = Except.ok o := by
      cases hs : strict with
      | true => exact ⟨some instances, by rw [if_pos rfl]⟩
      | false =>
        have hpar : ∀ e ∈ instances, (semverMajor e.version).isSome := by
          rcases h with h | h
          · rw [hs] at h; exact absurd h (by simp)
          · exact h
        obtain ⟨gs, hgs, -⟩ := groupByMajorAux_char instances [] hpar
        rw [if_neg (by simp)]
        rw [show groupByMajor instances = Except.ok gs from hgs]
        by_cases hf : (relaxedFiltered gs).length ≤ 1
        · exact ⟨none, by simp only [if_pos hf]⟩
        · exact ⟨some (relaxedFiltered gs), by simp only [if_neg hf]⟩
    obtain ⟨o, ho⟩ := hstep
    rw [ho]
    match o with
    | none => exact ⟨none, rfl⟩
    | some filtered =>
      match ex with
      | none => exact ⟨some filtered, rfl⟩
      | some exf =>
        by_cases hf : (filtered.filter (fun inst => ¬ exf name inst)).length ≤ 1
        · exact ⟨none, by simp only [if_pos hf]⟩
        · exact ⟨some (filtered.filter (fun inst => ¬ exf name inst)),
            by simp only [if_neg hf]⟩

/-- The classification loop succeeds when every name's instances satisfy
the per-name condition. -/
theorem classify_ok (strict : Bool) (ex : Option (String → Entry → Bool)) :
    ∀ map : List (String × List Entry),
      (∀ p ∈ map, strict = true ∨ ∀ e ∈ p.2, (semverMajor e.version).isSome) →
      ∃ d, classify strict ex map = Except.ok d
  | [], _ => ⟨[], rfl⟩
  | (name, instances) :: rest, h => by
    obtain ⟨o, ho⟩ := classifyName_ok strict ex name instances
      (h (name, instances) (List.mem_cons_self _ _))
    obtain ⟨d, hd⟩ := classify_ok strict ex rest
      (fun p hp => h p (List.mem_cons_of_mem _ hp))
    rw [classify, ho]
    match o with
    | none => exact ⟨d, hd⟩
    | some filtered => exact ⟨(name, filtered) :: d, by rw [hd]⟩

/-- **C3 counterexample**: with `strict := false` and two instances of a
package at the unparsable versions `"x"` and `"y"`, the `semver.major`
call throws and the exception escapes the emit handler — the pass does not
complete and the callback is never invoked. -/
theorem emit_pass_throws :
    emitPass { strict := false } gcp3x "/ctx"
        [WModule.mk (some "x.js") none, WModule.mk (some "y.js") none] =
      Except.error "Invalid Version: x" := rfl

/-- **C3 (amended)**: in strict mode — or whenever every version string the
resolver can produce parses as semver — the emit pass completes without
throwing and invokes the completion callback exactly once, including when
zero duplicates are found. -/
theorem emit_pass_total (opts : Options) (gcp : Gcp) (context : String)
    (mods : List WModule)
    (h : opts.strict = true ∨
      ∀ r cp, gcp r = some cp → (semverMajor cp.pkg.version).isSome) :
    ∃ out, emitPass opts gcp context mods = Except.ok out ∧
      out.callbackCalls = 1 := by
  have hcond : ∀ p ∈ aggregateModules gcp context mods,
      opts.strict = true ∨ ∀ e ∈ p.2, (semverMajor e.version).isSome := by
    rcases h with h | h
    · exact fun p _ => Or.inl h
    · intro p hp
      refine Or.inr fun e he => ?_
      have hknd := aggregateModules_keys_nodup gcp context mods
      have hlk : alookup p.1 (aggregateModules gcp context mods) = some p.2 :=
        alookup_of_mem hknd (by simpa using hp)
      obtain ⟨r, cp, hgcp, hv⟩ :=
        aggregateModules_versions_from_gcp gcp context mods p.1 p.2 hlk e he
      rw [hv]
      exact h r cp hgcp
  obtain ⟨d, hd⟩ := classify_ok opts.strict opts.exclude
    (aggregateModules gcp context mods) hcond
  refine ⟨⟨if opts.emitError then
      (if (sortedDuplicates d).length = 0 then [] else
        formatDiags opts.verbose opts.showHelp (sortedDuplicates d)) else [],
    if opts.emitError then [] else
      (if (sortedDuplicates d).length = 0 then [] else
        formatDiags opts.verbose opts.showHelp (sortedDuplicates d)),
    1⟩, ?_, rfl⟩
  rw [emitPass, emitStructured, hd]

/-- **C3 witness**: the default (strict) options over the same resolver
complete with one callback invocation. -/
theorem emit_pass_total_witness :
    ∃ out, emitPass {} gcp3x "/ctx"
        [WModule.mk (some "x.js") none, WModule.mk (some "y.js") none] =
      Except.ok out ∧ out.callbackCalls = 1 :=
  emit_pass_total {} gcp3x "/ctx" _ (Or.inl rfl)

/-- Membership in the rendered keys of a version-duplicate-free list. -/
theorem mem_map_renderKey {l : List Entry} (hnd : (l.map Entry.version).Nodup)
    (v : String) (ips : List String) :
    (v, ips) ∈ l.map renderKey ↔ keyAt l v = some ips := by
  constructor
  · intro h
    obtain ⟨e, he, hk⟩ := List.mem_map.mp h
    rw [renderKey, Prod.mk.injEq] at hk
    rw [keyAt, ← hk.1, findv_of_mem l hnd e he, Option.map_some']
    exact congrArg some hk.2
  · intro h
    rw [keyAt] at h
    match hf : findv v l with
    | none => rw [hf] at h; exact absurd h (by simp)
    | some e =>
      rw [hf] at h
      rw [Option.map_some', Option.some.injEq] at h
      obtain ⟨hmem, hver⟩ := mem_of_findv hf
      refine List.mem_map.mpr ⟨e, hmem, ?_⟩
      rw [renderKey, hver, h]

/-- Membership in the rendered keys of a version-predicate filter. -/
theorem mem_map_renderKey_filter {l : List Entry}
    (hnd : (l.map Entry.version).Nodup) (qv : String → Bool)
    (v : String) (ips : List String) :
    (v, ips) ∈ (l.filter (fun e => qv e.version)).map renderKey ↔
      (keyAt l v = some ips ∧ qv v = true) := by
  have hndf : ((l.filter (fun e => qv e.version)).map Entry.version).Nodup :=
    hnd.sublist ((List.filter_sublist l).map Entry.version)
  rw [mem_map_renderKey hndf]
  constructor
  · intro h
    rw [keyAt] at h
    match hf : findv v (l.filter (fun e => qv e.version)) with
    | none => rw [hf] at h; exact absurd h (by simp)
    | some e =>
      rw [hf] at h
      obtain ⟨hmem, hver⟩ := mem_of_findv hf
      have he := List.mem_filter.mp hmem
      refine ⟨?_, by rw [← hver]; exact he.2⟩
      rw [keyAt, ← hver, findv_of_mem l hnd e he.1]
      exact h
  · rintro ⟨h, hq⟩
    rw [keyAt] at h ⊢
    match hf : findv v l with
    | none => rw [hf] at h; exact absurd h (by simp)
    | some e =>
      rw [hf] at h
      obtain ⟨hmem, hver⟩ := mem_of_findv hf
      have hmemf : e ∈ l.filter (fun e => qv e.version) :=
        List.mem_filter.mpr ⟨hmem, by rw [hver]; exact hq⟩
      have : findv e.version (l.filter (fun e => qv e.version)) = some e :=
        findv_of_mem _ hndf e hmemf
      rw [← hver, this]
      exact h

/-- Two sorted assoc lists with the same members and unique keys are
equal. -/
theorem eq_of_perm_sorted_pairs : ∀ (l₁ l₂ : List (String × List String)),
    l₁.Perm l₂ → (l₁.map Prod.fst).Nodup →
    l₁.Sorted (fun a b => a.1 ≤ b.1) → l₂.Sorted (fun a b => a.1 ≤ b.1) →
    l₁ = l₂
  | [], l₂, hp, _, _, _ => hp.nil_eq
  | p₁ :: t₁, l₂, hp, hnd, hs₁, hs₂ => by
    match l₂ with
    | [] => exact absurd hp.symm.nil_eq (by simp)
    | p₂ :: t₂ =>
      have hsm₁ : ((p₁ :: t₁).map Prod.fst).Sorted (· ≤ ·) :=
        List.Pairwise.map Prod.fst (fun _ _ h => h) hs₁
      have hsm₂ : ((p₂ :: t₂).map Prod.fst).Sorted (· ≤ ·) :=
        List.Pairwise.map Prod.fst (fun _ _ h => h) hs₂
      have hfst : ((p₁ :: t₁).map Prod.fst) = ((p₂ :: t₂).map Prod.fst) :=
        List.eq_of_perm_of_sorted (hp.map Prod.fst) hsm₁ hsm₂
      have hp1 : p₁ = p₂ := by
        have hmem : p₁ ∈ p₂ :: t₂ := hp.subset (List.mem_cons_self _ _)
        rcases List.mem_cons.mp hmem with h | h
        · exact h
        · exfalso
          have h1 : p₁.1 ∈ t₂.map Prod.fst := List.mem_map.mpr ⟨p₁, h, rfl⟩
          have hndr : ((p₂ :: t₂).map Prod.fst).Nodup := hfst ▸ hnd
          rw [List.map_cons, List.nodup_cons] at hndr
          have h2 : p₂.1 = p₁.1 := by
            have := congrArg (fun l => l.head?) hfst
            simpa using this.symm
          exact hndr.1 (h2 ▸ h1)
      subst hp1
      have hpt : t₁.Perm t₂ := hp.cons_inv
      rw [List.map_cons, List.nodup_cons] at hnd
      rw [eq_of_perm_sorted_pairs t₁ t₂ hpt hnd.2 hs₁.of_cons hs₂.of_cons]

/-- With `verbose = false` the instance line ignores `path` and `issuer`. -/
theorem formatInstance_false (e : Entry) :
    formatInstance false e = instStr (e.version, e.issuerPaths) := by
  rw [formatInstance, instStr]
  match e.issuer with
  | none => simp
  | some iss => simp

/-- `formatDiag` factors through the rendered key. -/
theorem formatDiag_eq_diagOfKey (verbose withHelp : Bool) (name : String)
    (instances : List Entry) :
    formatDiag verbose withHelp name instances =
      diagOfKey withHelp (name, instances.map (formatInstance verbose)) := rfl

/-- `formatDiags` factors through the per-name rendered keys. -/
theorem formatDiags_congr (verbose showHelp : Bool)
    (s₁ s₂ : List (String × List Entry))
    (h : s₁.map (fun p => (p.1, p.2.map (formatInstance verbose))) =
      s₂.map (fun p => (p.1, p.2.map (formatInstance verbose)))) :
    formatDiags verbose showHelp s₁ = formatDiags verbose showHelp s₂ := by
  have hlen : s₁.length = s₂.length := by
    have := congrArg List.length h
    simpa using this
  rw [formatDiags, formatDiags]
  apply List.ext_getElem
  · simp [hlen]
  · intro i h₁ h₂
    simp only [List.getElem_map, List.getElem_enum]
    have hb₁ : i < s₁.length := by simpa using h₁
    have hb₂ : i < s₂.length := by simpa using h₂
    have hkey : s₁[i].1 = s₂[i].1 ∧
        (s₁[i].2.map (formatInstance verbose)) =
        (s₂[i].2.map (formatInstance verbose)) := by
      have hh := congrArg (fun l => l[i]?) h
      simp only [List.getElem?_map] at hh
      rw [List.getElem?_eq_getElem hb₁, List.getElem?_eq_getElem hb₂] at hh
      simp only [Option.map_some', Option.some.injEq, Prod.mk.injEq] at hh
      exact hh
    rw [formatDiag_eq_diagOfKey, formatDiag_eq_diagOfKey, hkey.1, hkey.2, hlen]

/-- The per-name contributions of permuted module lists are permutations. -/
theorem infosOf_perm (gcp : Gcp) (context : String) {mods₁ mods₂ : List WModule}
    (h : mods₁.Perm mods₂) (name : String) :
    (infosOf gcp context mods₁ name).Perm (infosOf gcp context mods₂ name) :=
  h.filterMap _

/-- Permuted contributions give permuted version lists. -/
theorem aggName_versions_perm {infos₁ infos₂ : List ModInfo}
    (h : infos₁.Perm infos₂) :
    ((aggName infos₁).map Entry.version).Perm ((aggName infos₂).map Entry.version) := by
  refine (List.perm_ext_iff_of_nodup (aggName_versions_nodup _)
    (aggName_versions_nodup _)).mpr fun v => ?_
  rw [aggName, versions_foldl, aggName, versions_foldl]
  rw [mem_foldl_pushNew, mem_foldl_pushNew]
  simp only [List.map_nil, List.not_mem_nil, false_or]
  exact (h.map ModInfo.version).mem_iff

/-- No contribution at a version: no entry. -/
theorem keyAt_aggName_none {infos : List ModInfo} {v : String}
    (h : infos.filter (fun i => i.version = v) = []) :
    keyAt (aggName infos) v = none := by
  rw [keyAt, aggName, findv_foldl_none infos [] v (findv_nil v), h]
  rfl

/-- The canonical key at a contributed version. -/
theorem keyAt_aggName_some {infos : List ModInfo} {v : String} {i : ModInfo}
    {fl : List ModInfo} (h : infos.filter (fun i => i.version = v) = i :: fl) :
    keyAt (aggName infos) v =
      some ((accPaths [] ((i :: fl).map ModInfo.issuerPath)).insertionSort (· ≤ ·)) := by
  rw [keyAt, aggName, findv_foldl_none infos [] v (findv_nil v), h]
  rfl

/-- Sorted accumulated issuer paths depend only on the multiset of
contributions. -/
theorem accPaths_sort_perm {ips₁ ips₂ : List (Option String)} (h : ips₁.Perm ips₂) :
    (accPaths [] ips₁).insertionSort (· ≤ ·) =
      (accPaths [] ips₂).insertionSort (· ≤ ·) := by
  have hperm : (accPaths [] ips₁).Perm (accPaths [] ips₂) := by
    refine (List.perm_ext_iff_of_nodup (accPaths_nodup _ _ (by simp))
      (accPaths_nodup _ _ (by simp))).mpr fun x => ?_
    rw [mem_accPaths, mem_accPaths]
    simp only [List.not_mem_nil, false_or]
    exact h.mem_iff
  exact List.eq_of_perm_of_sorted
    (((List.perm_insertionSort _ _).trans hperm).trans
      (List.perm_insertionSort _ _).symm)
    (List.sorted_insertionSort _ _) (List.sorted_insertionSort _ _)

/-- The canonical key at any name and version is invariant under module
reordering. -/
theorem agg_keyAt_invariant (gcp : Gcp) (context : String)
    {mods₁ mods₂ : List WModule} (h : mods₁.Perm mods₂) (name v : String) :
    keyAt (aggName (infosOf gcp context mods₁ name)) v =
      keyAt (aggName (infosOf gcp context mods₂ name)) v := by
  have hfil : ((infosOf gcp context mods₁ name).filter
      (fun i => i.version = v)).Perm
      ((infosOf gcp context mods₂ name).filter (fun i => i.version = v)) :=
    (infosOf_perm gcp context h name).filter _
  match h₁ : (infosOf gcp context mods₁ name).filter (fun i => i.version = v),
      h₂ : (infosOf gcp context mods₂ name).filter (fun i => i.version = v) with
  | [], [] => rw [keyAt_aggName_none h₁, keyAt_aggName_none h₂]
  | [], i :: fl =>
    rw [h₁, h₂] at hfil
    exact absurd hfil.nil_eq (by simp)
  | i :: fl, [] =>
    rw [h₁, h₂] at hfil
    exact absurd hfil.symm.nil_eq (by simp)
  | i₁ :: fl₁, i₂ :: fl₂ =>
    rw [h₁, h₂] at hfil
    rw [keyAt_aggName_some h₁, keyAt_aggName_some h₂,
      accPaths_sort_perm (hfil.map ModInfo.issuerPath)]

/-- A successful grouping means every version parsed. -/
theorem groupByMajorAux_ok_parse : ∀ (l : List Entry)
    (acc gs : List (Nat × List Entry)), groupByMajorAux acc l = Except.ok gs →
    ∀ e ∈ l, (semverMajor e.version).isSome
  | [], _, _, _, e, he => by simp at he
  | e' :: rest, acc, gs, h, e, he => by
    rw [groupByMajorAux] at h
    match hk : semverMajor e'.version with
    | none => rw [hk] at h; exact absurd h (by simp)
    | some k =>
      rw [hk] at h
      rcases List.mem_cons.mp he with rfl | he
      · simp [hk]
      · exact groupByMajorAux_ok_parse rest _ gs h e he

/-- `groupInsert` only adds the element to the grouped contents. -/
theorem flatten_groupInsert (k : Nat) (e : Entry) :
    ∀ gs : List (Nat × List Entry),
      (((groupInsert k e gs).map Prod.snd).flatten).Perm
        (e :: (gs.map Prod.snd).flatten)
  | [] => by simp [groupInsert]
  | (k', g) :: rest => by
    by_cases hk : k' = k
    · subst hk
      rw [groupInsert, if_pos rfl]
      simp only [List.map_cons, List.flatten_cons, List.append_assoc,
        List.singleton_append]
      exact List.perm_middle
    · rw [groupInsert, if_neg hk]
      simp only [List.map_cons, List.flatten_cons]
      exact ((flatten_groupInsert k e rest).append_left g).trans List.perm_middle

/-- Grouping is a permutation of the input (plus the accumulator). -/
theorem flatten_groupByMajorAux : ∀ (l : List Entry)
    (acc gs : List (Nat × List Entry)), groupByMajorAux acc l = Except.ok gs →
    ((gs.map Prod.snd).flatten).Perm ((acc.map Prod.snd).flatten ++ l)
  | [], acc, gs, h => by
    rw [groupByMajorAux] at h
    cases h
    simp
  | e :: rest, acc, gs, h => by
    rw [groupByMajorAux] at h
    match hk : semverMajor e.version with
    | none => rw [hk] at h; exact absurd h (by simp)
    | some k =>
      rw [hk] at h
      have hIH := flatten_groupByMajorAux rest (groupInsert k e acc) gs h
      refine hIH.trans ?_
      refine (((flatten_groupInsert k e acc).append_right rest).trans ?_)
      rw [List.cons_append]
      exact List.perm_middle.symm

/-- With unique keys, each group is exactly the filter at its major. -/
theorem group_eq_filter {l : List Entry} {gs : List (Nat × List Entry)}
    (hpar : ∀ e ∈ l, (semverMajor e.version).isSome)
    (hgs : groupByMajor l = Except.ok gs) {k : Nat} {g : List Entry}
    (hmem : (k, g) ∈ gs) :
    g = l.filter (fun e => semverMajor e.version = some k) := by
  have hnd : (gs.map Prod.fst).Nodup :=
    groupByMajorAux_keys_nodup l [] gs (by simp) hgs
  obtain ⟨gs', hgs', hchar⟩ := groupByMajorAux_char l [] hpar
  rw [groupByMajor] at hgs
  rw [hgs] at hgs'
  cases hgs'
  have hlk := glookup_of_mem hnd hmem
  have := hchar k
  rw [hlk] at this
  match hfl : l.filter (fun e => semverMajor e.version = some k) with
  | [] =>
    rw [hfl] at this
    simp [glookup] at this
  | f :: fl =>
    rw [hfl] at this
    rw [hfl]
    simpa [glookup] using this

/-- `bigb` only depends on the version multiset. -/
theorem bigb_perm {vs₁ vs₂ : List String} (h : vs₁.Perm vs₂) (v : String) :
    bigb vs₁ v = bigb vs₂ v := by
  rw [bigb, bigb]
  match semverMajor v with
  | none => rfl
  | some k =>
    show decide (1 < (vs₁.filter (fun x => semverMajor x = some k)).length) =
      decide (1 < (vs₂.filter (fun x => semverMajor x = some k)).length)
    rw [(h.filter (fun x => decide (semverMajor x = some k))).length_eq]

/-- Entry filters at a version predicate have the version-list filter's
length. -/
theorem filter_version_length (l : List Entry) (p : String → Bool) :
    (l.filter (fun e => p e.version)).length =
      ((l.map Entry.version).filter p).length := by
  rw [List.filter_map, List.length_map]
  rfl

/-- Filtering by a predicate constant on the list. -/
theorem filter_congr_const {g : List Entry} {p : Entry → Bool} {b : Bool}
    (h : ∀ e ∈ g, p e = b) : g.filter p = if b then g else [] := by
  cases b
  · show g.filter p = []
    rw [List.filter_eq_nil_iff]
    intro e he
    simp [h e he]
  · show g.filter p = g
    exact List.filter_eq_self.mpr h

/-- Dropping empty alternatives from a flatten. -/
theorem flatten_map_ite (q : Nat × List Entry → Prop) [DecidablePred q] :
    ∀ gs : List (Nat × List Entry),
      ((gs.map (fun p => if q p then p.2 else [])).flatten) =
        (((gs.filter (fun p => decide (q p))).map Prod.snd).flatten)
  | [] => rfl
  | p :: rest => by
    by_cases hq : q p
    · rw [List.map_cons, if_pos hq, List.filter_cons_of_pos (by simpa using hq),
        List.map_cons, List.flatten_cons, List.flatten_cons,
        flatten_map_ite q rest]
    · rw [List.map_cons, if_neg hq, List.filter_cons_of_neg (by simpa using hq),
        List.flatten_cons, List.nil_append, flatten_map_ite q rest]

/-- The relaxed filter is, up to permutation, the filter of the instances
whose major-version group (computed on the version list) has two or more
members. -/
theorem relaxedFiltered_perm {l : List Entry} {gs : List (Nat × List Entry)}
    (hpar : ∀ e ∈ l, (semverMajor e.version).isSome)
    (hgs : groupByMajor l = Except.ok gs) :
    (relaxedFiltered gs).Perm
      (l.filter (fun e => bigb (l.map Entry.version) e.version)) := by
  have hflat : ((gs.map Prod.snd).flatten).Perm l := by
    simpa using flatten_groupByMajorAux l [] gs hgs
  have heq : relaxedFiltered gs =
      ((gs.map Prod.snd).flatten).filter
        (fun e => bigb (l.map Entry.version) e.version) := by
    rw [relaxedFiltered_eq_join, List.filter_flatten]
    rw [show (gs.map Prod.snd).map
        (List.filter (fun e => bigb (l.map Entry.version) e.version)) =
      gs.map (fun p => if 1 < p.2.length then p.2 else []) from ?_]
    · rw [flatten_map_ite (fun p => 1 < p.2.length) gs]
    · rw [List.map_map]
      apply List.map_congr_left
      intro p hp
      obtain ⟨k, g⟩ := p
      have hg : g = l.filter (fun e => semverMajor e.version = some k) :=
        group_eq_filter hpar hgs hp
      have hconst : ∀ e ∈ g, bigb (l.map Entry.version) e.version =
          decide (1 < g.length) := by
        intro e he
        have hek : semverMajor e.version = some k := by
          rw [hg] at he
          simpa using (List.mem_filter.mp he).2
        rw [bigb]
        rw [hek]
        show decide (1 < ((l.map Entry.version).filter
            (fun x => semverMajor x = some k)).length) = decide (1 < g.length)
        have hlen : (l.filter (fun e => semverMajor e.version = some k)).length =
            ((l.map Entry.version).filter
              (fun x => semverMajor x = some k)).length :=
          filter_version_length l (fun x => decide (semverMajor x = some k))
        rw [← hlen, ← hg]
      have := filter_congr_const hconst
      simp only [Function.comp]
      rw [this]
      by_cases hb : 1 < g.length
      · rw [if_pos (by simpa using hb), if_pos (by simpa using hb)]
      · rw [if_neg (by simpa using hb), if_neg (by simpa using hb)]
  rw [heq]
  exact hflat.filter _

/-- Rendered keys inherit uniqueness from versions. -/
theorem nodup_map_renderKey {f : List Entry} (h : (f.map Entry.version).Nodup) :
    (f.map renderKey).Nodup := by
  refine List.Nodup.of_map Prod.fst ?_
  rw [List.map_map]
  exact h

/-- Equal rendered-key multisets give equal per-version keys. -/
theorem keyAt_eq_of_renderKey_perm {f₁ f₂ : List Entry}
    (h₁ : (f₁.map Entry.version).Nodup) (h₂ : (f₂.map Entry.version).Nodup)
    (hp : (f₁.map renderKey).Perm (f₂.map renderKey)) (v : String) :
    keyAt f₁ v = keyAt f₂ v := by
  match hk : keyAt f₁ v with
  | some ips =>
    have := (mem_map_renderKey h₂ v ips).mp
      (hp.mem_iff.mp ((mem_map_renderKey h₁ v ips).mpr hk))
    rw [this]
  | none =>
    match hk2 : keyAt f₂ v with
    | none => rfl
    | some ips =>
      have := (mem_map_renderKey h₁ v ips).mp
        (hp.mem_iff.mpr ((mem_map_renderKey h₂ v ips).mpr hk2))
      rw [hk] at this
      exact absurd this (by simp)

/-- A version-predicate filter preserves the rendered-key permutation. -/
theorem renderKey_filter_perm {f₁ f₂ : List Entry}
    (h₁ : (f₁.map Entry.version).Nodup) (h₂ : (f₂.map Entry.version).Nodup)
    (hp : (f₁.map renderKey).Perm (f₂.map renderKey)) (qv : String → Bool) :
    ((f₁.filter (fun e => qv e.version)).map renderKey).Perm
      ((f₂.filter (fun e => qv e.version)).map renderKey) := by
  have hn₁ : ((f₁.filter (fun e => qv e.version)).map Entry.version).Nodup :=
    h₁.sublist ((List.filter_sublist f₁).map Entry.version)
  have hn₂ : ((f₂.filter (fun e => qv e.version)).map Entry.version).Nodup :=
    h₂.sublist ((List.filter_sublist f₂).map Entry.version)
  refine (List.perm_ext_iff_of_nodup (nodup_map_renderKey hn₁)
    (nodup_map_renderKey hn₂)).mpr fun k => ?_
  obtain ⟨v, ips⟩ := k
  rw [mem_map_renderKey_filter h₁, mem_map_renderKey_filter h₂,
    keyAt_eq_of_renderKey_perm h₁ h₂ hp v]

/-- Negating a boolean equality test. -/
theorem decide_not_eq_true (b : Bool) : decide (¬ b = true) = ! b := by
  cases b <;> rfl

/-- The classifier body treats permuted inputs with equal per-version keys
identically, up to the rendered keys of the reported set. -/
theorem classifyName_perm_invariant (strict : Bool)
    (ex : Option (String → Entry → Bool)) (name : String)
    (hex : ∀ f, ex = some f → ∀ a b : Entry, a.version = b.version →
      f name a = f name b)
    (l₁ l₂ : List Entry)
    (hN₁ : (l₁.map Entry.version).Nodup) (hN₂ : (l₂.map Entry.version).Nodup)
    (hV : (l₁.map Entry.version).Perm (l₂.map Entry.version))
    (hK : ∀ v, keyAt l₁ v = keyAt l₂ v)
    (o₁ : Option (List Entry)) (h₁ : classifyName strict ex name l₁ = Except.ok o₁) :
    ∃ o₂, classifyName strict ex name l₂ = Except.ok o₂ ∧
      ((o₁ = none ∧ o₂ = none) ∨
        ∃ f₁ f₂, o₁ = some f₁ ∧ o₂ = some f₂ ∧
          (f₁.map Entry.version).Nodup ∧ (f₂.map Entry.version).Nodup ∧
          (f₁.map renderKey).Perm (f₂.map renderKey)) := by
  have hlen12 : l₁.length = l₂.length := by
    have := hV.length_eq
    simpa using this
  rw [classifyName] at h₁ ⊢
  by_cases hlen : l₁.length ≤ 1
  · rw [if_pos hlen] at h₁
    rw [if_pos (hlen12 ▸ hlen)]
    exact ⟨none, rfl, Or.inl ⟨by simpa using h₁.symm, rfl⟩⟩
  · rw [if_neg hlen] at h₁
    rw [if_neg (hlen12 ▸ hlen)]
    have hstep : ∃ s₁ s₂ : Option (List Entry),
        (if strict then Except.ok (some l₁)
          else
            match groupByMajor l₁ with
            | Except.error e => Except.error e
            | Except.ok groups =>
              let filtered := relaxedFiltered groups
              if filtered.length ≤ 1 then Except.ok none
              else Except.ok (some filtered) :
            Except String (Option (List Entry))) = Except.ok s₁ ∧
        (if strict then Except.ok (some l₂)
          else
            match groupByMajor l₂ with
            | Except.error e => Except.error e
            | Except.ok groups =>
              let filtered := relaxedFiltered groups
              if filtered.length ≤ 1 then Except.ok none
              else Except.ok (some filtered) :
            Except String (Option (List Entry))) = Except.ok s₂ ∧
        ((s₁ = none ∧ s₂ = none) ∨
          ∃ f₁ f₂, s₁ = some f₁ ∧ s₂ = some f₂ ∧
            (f₁.map Entry.version).Nodup ∧ (f₂.map Entry.version).Nodup ∧
            (f₁.map renderKey).Perm (f₂.map renderKey)) := by
      cases hs : strict with
      | true =>
        refine ⟨some l₁, some l₂, by rw [if_pos rfl], by rw [if_pos rfl],
          Or.inr ⟨l₁, l₂, rfl, rfl, hN₁, hN₂, ?_⟩⟩
        refine (List.perm_ext_iff_of_nodup (nodup_map_renderKey hN₁)
          (nodup_map_renderKey hN₂)).mpr fun k => ?_
        obtain ⟨v, ips⟩ := k
        rw [mem_map_renderKey hN₁, mem_map_renderKey hN₂, hK v]
      | false =>
        rw [if_neg (by simp [hs])] at h₁
        rw [if_neg (by simp [hs]), if_neg (by simp [hs])]
        match hg₁ : groupByMajor l₁ with
        | Except.error e => rw [hg₁] at h₁; exact absurd h₁ (by simp)
        | Except.ok gs₁ =>
          have hpar₁ : ∀ e ∈ l₁, (semverMajor e.version).isSome :=
            groupByMajorAux_ok_parse l₁ [] gs₁ hg₁
          have hpar₂ : ∀ e ∈ l₂, (semverMajor e.version).isSome := by
            intro e he
            have : e.version ∈ l₁.map Entry.version :=
              hV.symm.mem_iff.mp (List.mem_map.mpr ⟨e, he, rfl⟩)
            obtain ⟨e', he', hv'⟩ := List.mem_map.mp this
            rw [← hv']
            exact hpar₁ e' he'
          obtain ⟨gs₂, hg₂, -⟩ := groupByMajorAux_char l₂ [] hpar₂
          have hU₁ := relaxedFiltered_perm hpar₁ hg₁
          have hU₂ := relaxedFiltered_perm hpar₂ hg₂
          have hbig : ∀ v, bigb (l₁.map Entry.version) v =
              bigb (l₂.map Entry.version) v := bigb_perm hV
          have hF : ((l₁.filter (fun e => bigb (l₁.map Entry.version)
              e.version)).map renderKey).Perm
              ((l₂.filter (fun e => bigb (l₂.map Entry.version)
                e.version)).map renderKey) := by
            refine (List.perm_ext_iff_of_nodup
              (nodup_map_renderKey (hN₁.sublist
                ((List.filter_sublist l₁).map Entry.version)))
              (nodup_map_renderKey (hN₂.sublist
                ((List.filter_sublist l₂).map Entry.version)))).mpr fun k => ?_
            obtain ⟨v, ips⟩ := k
            rw [mem_map_renderKey_filter hN₁, mem_map_renderKey_filter hN₂,
              hK v, hbig v]
          have hUkey : ((relaxedFiltered gs₁).map renderKey).Perm
              ((relaxedFiltered gs₂).map renderKey) :=
            ((hU₁.map renderKey).trans hF).trans (hU₂.map renderKey).symm
          have hUn₁ : ((relaxedFiltered gs₁).map Entry.version).Nodup := by
            refine ((hU₁.map Entry.version).nodup_iff).mpr ?_
            exact hN₁.sublist ((List.filter_sublist l₁).map Entry.version)
          have hUn₂ : ((relaxedFiltered gs₂).map Entry.version).Nodup := by
            refine ((hU₂.map Entry.version).nodup_iff).mpr ?_
            exact hN₂.sublist ((List.filter_sublist l₂).map Entry.version)
          have hUlen : (relaxedFiltered gs₁).length =
              (relaxedFiltered gs₂).length := by
            have := hUkey.length_eq
            simpa using this
          rw [hg₁] at h₁
          rw [show groupByMajor l₂ = groupByMajorAux [] l₂ from rfl, hg₂]
          by_cases hle : (relaxedFiltered gs₁).length ≤ 1
          · refine ⟨none, none, ?_, ?_, Or.inl ⟨rfl, rfl⟩⟩
            · show (if (relaxedFiltered gs₁).length ≤ 1
                then (Except.ok none : Except String (Option (List Entry)))
                else Except.ok (some (relaxedFiltered gs₁))) = Except.ok none
              rw [if_pos hle]
            · show (if (relaxedFiltered gs₂).length ≤ 1
                then (Except.ok none : Except String (Option (List Entry)))
                else Except.ok (some (relaxedFiltered gs₂))) = Except.ok none
              rw [if_pos (hUlen ▸ hle)]
          · refine ⟨some (relaxedFiltered gs₁), some (relaxedFiltered gs₂),
              ?_, ?_, Or.inr ⟨_, _, rfl, rfl, hUn₁, hUn₂, hUkey⟩⟩
            · show (if (relaxedFiltered gs₁).length ≤ 1
                then (Except.ok none : Except String (Option (List Entry)))
                else Except.ok (some (relaxedFiltered gs₁)))
                = Except.ok (some (relaxedFiltered gs₁))
              rw [if_neg hle]
            · show (if (relaxedFiltered gs₂).length ≤ 1
                then (Except.ok none : Except String (Option (List Entry)))
                else Except.ok (some (relaxedFiltered gs₂)))
                = Except.ok (some (relaxedFiltered gs₂))
              rw [if_neg (hUlen ▸ hle)]
    obtain ⟨s₁, s₂, hs₁, hs₂, hrel⟩ := hstep
    rw [hs₁] at h₁
    rw [hs₂]
    rcases hrel with ⟨rfl, rfl⟩ | ⟨f₁, f₂, rfl, rfl, hfn₁, hfn₂, hfp⟩
    · exact ⟨none, rfl, Or.inl ⟨by simpa using h₁.symm, rfl⟩⟩
    · match ex, hex with
      | none, _ =>
        exact ⟨some f₂, rfl, Or.inr ⟨f₁, f₂, by simpa using h₁.symm, rfl,
          hfn₁, hfn₂, hfp⟩⟩
      | some f, hex =>
        have hg : ∀ e : Entry, f name e = f name (canonV e.version) :=
          fun e => hex f rfl e _ rfl
        have hfilter : ∀ l : List Entry,
            l.filter (fun inst => ¬ f name inst) =
              l.filter (fun e => ! f name (canonV e.version)) := by
          intro l
          apply List.filter_congr
          intro e _
          rw [decide_not_eq_true (f name e), hg e]
        have h₁' : (if (f₁.filter (fun inst => ¬ f name inst)).length ≤ 1
            then (Except.ok none : Except String (Option (List Entry)))
            else Except.ok (some (f₁.filter (fun inst => ¬ f name inst))))
            = Except.ok o₁ := h₁
        rw [hfilter f₁] at h₁'
        have hq := renderKey_filter_perm hfn₁ hfn₂ hfp
          (fun v => ! f name (canonV v))
        have hqlen : (f₁.filter (fun e => ! f name (canonV e.version))).length =
            (f₂.filter (fun e => ! f name (canonV e.version))).length := by
          have := hq.length_eq
          simpa using this
        by_cases hle : (f₁.filter (fun e => ! f name (canonV e.version))).length ≤ 1
        · rw [if_pos hle] at h₁'
          refine ⟨none, ?_, Or.inl ⟨by simpa using h₁'.symm, rfl⟩⟩
          show (if (f₂.filter (fun inst => ¬ f name inst)).length ≤ 1
            then (Except.ok none : Except String (Option (List Entry)))
            else Except.ok (some (f₂.filter (fun inst => ¬ f name inst))))
            = Except.ok none
          rw [hfilter f₂, if_pos (hqlen ▸ hle)]
        · rw [if_neg hle] at h₁'
          refine ⟨some (f₂.filter (fun e => ! f name (canonV e.version))), ?_,
            Or.inr ⟨_, _, by simpa using h₁'.symm, rfl, ?_, ?_, hq⟩⟩
          · show (if (f₂.filter (fun inst => ¬ f name inst)).length ≤ 1
              then (Except.ok none : Except String (Option (List Entry)))
              else Except.ok (some (f₂.filter (fun inst => ¬ f name inst))))
              = Except.ok (some (f₂.filter (fun e => ! f name (canonV e.version))))
            rw [hfilter f₂, if_neg (hqlen ▸ hle)]
          · exact hfn₁.sublist ((List.filter_sublist f₁).map Entry.version)
          · exact hfn₂.sublist ((List.filter_sublist f₂).map Entry.version)

/-- A successful classification pass classified every row successfully. -/
theorem classify_all_ok (strict : Bool) (ex : Option (String → Entry → Bool)) :
    ∀ (m d : List (String × List Entry)),
      classify strict ex m = Except.ok d →
      ∀ p ∈ m, ∃ o, classifyName strict ex p.1 p.2 = Except.ok o := by
  intro m
  induction m with
  | nil => intro d _ p hp; simp at hp
  | cons q rest ih =>
    obtain ⟨name, instances⟩ := q
    intro d h p hp
    rw [classify] at h
    match hq : classifyName strict ex name instances with
    | Except.error e =>
      simp only [hq] at h
      exact Except.noConfusion h
    | Except.ok none =>
      simp only [hq] at h
      rcases List.mem_cons.mp hp with rfl | hp'
      · exact ⟨none, hq⟩
      · exact ih d h p hp'
    | Except.ok (some f) =>
      simp only [hq] at h
      rcases List.mem_cons.mp hp with rfl | hp'
      · exact ⟨some f, hq⟩
      · match hr : classify strict ex rest with
        | Except.error e =>
          simp only [hr] at h
          exact Except.noConfusion h
        | Except.ok dr => exact ih dr hr p hp'

/-- When every row classifies successfully, the classification loop
returns the row-wise filter-map of the input. -/
theorem classify_eq_filterMap (strict : Bool)
    (ex : Option (String → Entry → Bool)) :
    ∀ m : List (String × List Entry),
      (∀ p ∈ m, ∃ o, classifyName strict ex p.1 p.2 = Except.ok o) →
      classify strict ex m =
        Except.ok (m.filterMap (classifyRow strict ex)) := by
  intro m
  induction m with
  | nil => intro _; rfl
  | cons q rest ih =>
    obtain ⟨name, instances⟩ := q
    intro h
    obtain ⟨o, ho⟩ := h (name, instances) (List.mem_cons_self _ _)
    have hrest := ih (fun p hp => h p (List.mem_cons_of_mem _ hp))
    rw [classify, List.filterMap_cons]
    match o, ho with
    | none, ho => simp only [ho, classifyRow, hrest]
    | some f, ho => simp only [ho, classifyRow, hrest]

/-- A produced row keeps the name and records the classifier's output. -/
theorem classifyRow_eq_some (strict : Bool)
    (ex : Option (String → Entry → Bool)) (p q : String × List Entry)
    (h : classifyRow strict ex p = some q) :
    q.1 = p.1 ∧ classifyName strict ex p.1 p.2 = Except.ok (some q.2) := by
  rw [classifyRow] at h
  match hq : classifyName strict ex p.1 p.2 with
  | Except.error e =>
    simp only [hq] at h
    exact Option.noConfusion h
  | Except.ok none =>
    simp only [hq] at h
    exact Option.noConfusion h
  | Except.ok (some f) =>
    simp only [hq] at h
    cases h
    exact ⟨rfl, rfl⟩

/-- The reported names are a sublist of the aggregated names. -/
theorem classify_keys_sublist (strict : Bool)
    (ex : Option (String → Entry → Bool)) :
    ∀ m : List (String × List Entry),
      ((m.filterMap (classifyRow strict ex)).map Prod.fst).Sublist
        (m.map Prod.fst) := by
  intro m
  induction m with
  | nil => simp
  | cons q rest ih =>
    rw [List.filterMap_cons]
    match hq : classifyRow strict ex q with
    | none =>
      rw [List.map_cons]
      exact ih.cons _
    | some r =>
      rw [List.map_cons, List.map_cons,
        (classifyRow_eq_some strict ex q r hq).1]
      exact ih.cons₂ _

/-- Looking a name up in the classified map. -/
theorem alookup_classify (strict : Bool)
    (ex : Option (String → Entry → Bool))
    {m : List (String × List Entry)} (hnd : (m.map Prod.fst).Nodup)
    (name : String) (f : List Entry) :
    alookup name (m.filterMap (classifyRow strict ex)) = some f ↔
      ∃ l, alookup name m = some l ∧
        classifyName strict ex name l = Except.ok (some f) := by
  constructor
  · intro h
    obtain ⟨p, hpm, hrow⟩ := List.mem_filterMap.mp (mem_of_alookup h)
    obtain ⟨hfst, hcl⟩ := classifyRow_eq_some strict ex p _ hrow
    have hp' : p = (name, p.2) := by
      obtain ⟨a, b⟩ := p
      simpa using hfst.symm
    rw [hp'] at hpm
    refine ⟨p.2, alookup_of_mem hnd hpm, ?_⟩
    rw [show p.1 = name from hfst.symm ▸ rfl] at hcl
    exact hcl
  · rintro ⟨l, hl, hcl⟩
    have hrow : classifyRow strict ex (name, l) = some (name, f) := by
      rw [classifyRow]
      simp only [hcl]
    exact alookup_of_mem
      (hnd.sublist (classify_keys_sublist strict ex m))
      (List.mem_filterMap.mpr ⟨(name, l), mem_of_alookup hl, hrow⟩)

/-- Key membership is lookup success on a duplicate-free-keyed map. -/
theorem mem_keys_iff_alookup {m : List (String × List Entry)}
    (hnd : (m.map Prod.fst).Nodup) (name : String) :
    name ∈ m.map Prod.fst ↔ ∃ f, alookup name m = some f := by
  constructor
  · intro h
    obtain ⟨⟨a, b⟩, hpm, hf⟩ := List.mem_map.mp h
    cases hf
    exact ⟨b, alookup_of_mem hnd hpm⟩
  · rintro ⟨f, hf⟩
    exact List.mem_map.mpr ⟨(name, f), mem_of_alookup hf, rfl⟩

/-- One-sided per-name transport of the classified rows across a module
permutation: a reported name is reported on the other side with the same
rendered keys. -/
theorem filterMap_lookup_invariant (strict : Bool)
    (ex : Option (String → Entry → Bool))
    (hex : ∀ f, ex = some f → ∀ (n : String) (a b : Entry),
      a.version = b.version → f n a = f n b)
    (gcp : Gcp) (context : String) {mods₁ mods₂ : List WModule}
    (hp : mods₁.Perm mods₂) (name : String) (f₁ : List Entry)
    (hf₁ : alookup name ((aggregateModules gcp context mods₁).filterMap
      (classifyRow strict ex)) = some f₁) :
    ∃ f₂, alookup name ((aggregateModules gcp context mods₂).filterMap
        (classifyRow strict ex)) = some f₂ ∧
      (f₁.map Entry.version).Nodup ∧ (f₂.map Entry.version).Nodup ∧
      (f₁.map renderKey).Perm (f₂.map renderKey) := by
  have hk₁ := aggregateModules_keys_nodup gcp context mods₁
  have hk₂ := aggregateModules_keys_nodup gcp context mods₂
  obtain ⟨l₁, hl₁, hcl₁⟩ := (alookup_classify strict ex hk₁ name f₁).mp hf₁
  rw [alookup_aggregateModules] at hl₁
  by_cases hz : infosOf gcp context mods₁ name = []
  · rw [if_pos hz] at hl₁
    exact absurd hl₁ (by simp)
  · rw [if_neg hz] at hl₁
    have hle : l₁ = aggName (infosOf gcp context mods₁ name) := by
      injection hl₁ with h
      exact h.symm
    subst hle
    have hinf := infosOf_perm gcp context hp name
    have hz₂ : infosOf gcp context mods₂ name ≠ [] := by
      intro h0
      rw [h0] at hinf
      exact hz hinf.symm.nil_eq.symm
    obtain ⟨o₂, ho₂, hrel⟩ := classifyName_perm_invariant strict ex name
      (fun f hf => hex f hf name) _ _
      (aggName_versions_nodup _) (aggName_versions_nodup _)
      (aggName_versions_perm hinf)
      (agg_keyAt_invariant gcp context hp name) (some f₁) hcl₁
    rcases hrel with ⟨h0, -⟩ | ⟨g₁, f₂, hg₁, hg₂, hn₁, hn₂, hperm⟩
    · exact absurd h0 (by simp)
    · have hgf : g₁ = f₁ := by
        injection hg₁ with h
        exact h.symm
      subst hgf
      refine ⟨f₂, ?_, hn₁, hn₂, hperm⟩
      exact (alookup_classify strict ex hk₂ name f₂).mpr
        ⟨aggName (infosOf gcp context mods₂ name),
          by rw [alookup_aggregateModules, if_neg hz₂], hg₂ ▸ ho₂⟩

/-- Classification over the aggregations of permuted module lists: the
second run also succeeds, it reports the same names, and each name's
reported instances carry the same rendered keys. -/
theorem classify_agg_invariant (strict : Bool)
    (ex : Option (String → Entry → Bool))
    (hex : ∀ f, ex = some f → ∀ (n : String) (a b : Entry),
      a.version = b.version → f n a = f n b)
    (gcp : Gcp) (context : String) {mods₁ mods₂ : List WModule}
    (hp : mods₁.Perm mods₂) (d₁ : List (String × List Entry))
    (h₁ : classify strict ex (aggregateModules gcp context mods₁) =
      Except.ok d₁) :
    ∃ d₂, classify strict ex (aggregateModules gcp context mods₂) =
        Except.ok d₂ ∧
      (d₁.map Prod.fst).Nodup ∧ (d₂.map Prod.fst).Nodup ∧
      (d₁.map Prod.fst).Perm (d₂.map Prod.fst) ∧
      (∀ name f₁ f₂, alookup name d₁ = some f₁ → alookup name d₂ = some f₂ →
        (f₁.map Entry.version).Nodup ∧ (f₂.map Entry.version).Nodup ∧
        (f₁.map renderKey).Perm (f₂.map renderKey)) := by
  have hk₁ := aggregateModules_keys_nodup gcp context mods₁
  have hk₂ := aggregateModules_keys_nodup gcp context mods₂
  have hall₁ := classify_all_ok strict ex _ d₁ h₁
  have hall₂ : ∀ p ∈ aggregateModules gcp context mods₂,
      ∃ o, classifyName strict ex p.1 p.2 = Except.ok o := by
    rintro ⟨name, l₂⟩ hpm
    have hl₂ : alookup name (aggregateModules gcp context mods₂) = some l₂ :=
      alookup_of_mem hk₂ hpm
    rw [alookup_aggregateModules] at hl₂
    by_cases hz : infosOf gcp context mods₂ name = []
    · rw [if_pos hz] at hl₂
      exact absurd hl₂ (by simp)
    · rw [if_neg hz] at hl₂
      have hinf := infosOf_perm gcp context hp name
      have hz₁ : infosOf gcp context mods₁ name ≠ [] := by
        intro h0
        rw [h0] at hinf
        exact hz hinf.nil_eq.symm
      have hl₁ : alookup name (aggregateModules gcp context mods₁) =
          some (aggName (infosOf gcp context mods₁ name)) := by
        rw [alookup_aggregateModules, if_neg hz₁]
      obtain ⟨o₁, ho₁⟩ := hall₁ _ (mem_of_alookup hl₁)
      obtain ⟨o₂, ho₂, -⟩ := classifyName_perm_invariant strict ex name
        (fun f hf => hex f hf name) _ _
        (aggName_versions_nodup _) (aggName_versions_nodup _)
        (aggName_versions_perm hinf)
        (agg_keyAt_invariant gcp context hp name) o₁ ho₁
      have hle : l₂ = aggName (infosOf gcp context mods₂ name) := by
        injection hl₂ with h
        exact h.symm
      subst hle
      exact ⟨o₂, ho₂⟩
  have hde : d₁ = (aggregateModules gcp context mods₁).filterMap
      (classifyRow strict ex) := by
    have hh := classify_eq_filterMap strict ex _ hall₁
    rw [h₁] at hh
    exact Except.ok.inj hh
  have hnd₁ : (d₁.map Prod.fst).Nodup := by
    rw [hde]
    exact hk₁.sublist (classify_keys_sublist strict ex _)
  have hnd₂ : (((aggregateModules gcp context mods₂).filterMap
      (classifyRow strict ex)).map Prod.fst).Nodup :=
    hk₂.sublist (classify_keys_sublist strict ex _)
  refine ⟨(aggregateModules gcp context mods₂).filterMap
      (classifyRow strict ex),
    classify_eq_filterMap strict ex _ hall₂, hnd₁, hnd₂, ?_, ?_⟩
  · refine (List.perm_ext_iff_of_nodup hnd₁ hnd₂).mpr fun name => ?_
    rw [mem_keys_iff_alookup hnd₁, mem_keys_iff_alookup hnd₂]
    constructor
    · rintro ⟨f₁, hf₁⟩
      rw [hde] at hf₁
      obtain ⟨f₂, hf₂, -⟩ := filterMap_lookup_invariant strict ex hex
        gcp context hp name f₁ hf₁
      exact ⟨f₂, hf₂⟩
    · rintro ⟨f₂, hf₂⟩
      obtain ⟨f₁, hf₁, -⟩ := filterMap_lookup_invariant strict ex hex
        gcp context hp.symm name f₂ hf₂
      exact ⟨f₁, by rw [hde]; exact hf₁⟩
  · intro name f₁ f₂ hf₁ hf₂
    rw [hde] at hf₁
    obtain ⟨f₂', hf₂', hn₁, hn₂, hperm⟩ := filterMap_lookup_invariant strict
      ex hex gcp context hp name f₁ hf₁
    have hee : f₂' = f₂ := by
      rw [hf₂'] at hf₂
      exact Option.some.inj hf₂
    subst hee
    exact ⟨hn₁, hn₂, hperm⟩

/-! ### Assembling the canonicalized report -/

/-- Canonicalizing issuer paths makes the non-verbose instance line a
function of the rendered key. -/
theorem formatInstance_canon (e : Entry) :
    formatInstance false (canonEntry e) = instStr (renderKey e) := by
  rw [formatInstance_false]
  rfl

/-- Sorting by version turns equal rendered-key multisets into equal
rendered-key lists. -/
theorem sortInstances_renderKey_eq {f₁ f₂ : List Entry}
    (hn₁ : (f₁.map Entry.version).Nodup) (hn₂ : (f₂.map Entry.version).Nodup)
    (hperm : (f₁.map renderKey).Perm (f₂.map renderKey)) :
    (sortInstances f₁).map renderKey = (sortInstances f₂).map renderKey := by
  have hv₁ : ((sortInstances f₁).map renderKey).map Prod.fst =
      (sortInstances f₁).map Entry.version := by
    rw [List.map_map]
    rfl
  have hv₂ : ((sortInstances f₂).map renderKey).map Prod.fst =
      (sortInstances f₂).map Entry.version := by
    rw [List.map_map]
    rfl
  apply eq_of_perm_sorted_pairs
  · exact (((List.perm_insertionSort _ _).map renderKey).trans hperm).trans
      ((List.perm_insertionSort _ _).map renderKey).symm
  · rw [hv₁]
    exact ((List.perm_insertionSort _ _).map Entry.version).nodup_iff.mpr hn₁
  · have hs : (sortInstances f₁).Sorted
        (fun a b : Entry => a.version ≤ b.version) :=
      List.sorted_insertionSort _ f₁
    exact List.Pairwise.map renderKey (fun _ _ h => h) hs
  · have hs : (sortInstances f₂).Sorted
        (fun a b : Entry => a.version ≤ b.version) :=
      List.sorted_insertionSort _ f₂
    exact List.Pairwise.map renderKey (fun _ _ h => h) hs

/-- Equal per-name rendered keys give syntactically equal canonicalized
presentation data. -/
theorem sortedDuplicates_render_eq (d₁ d₂ : List (String × List Entry))
    (hnd₁ : (d₁.map Prod.fst).Nodup) (hnd₂ : (d₂.map Prod.fst).Nodup)
    (hkp : (d₁.map Prod.fst).Perm (d₂.map Prod.fst))
    (hrel : ∀ name f₁ f₂, alookup name d₁ = some f₁ →
      alookup name d₂ = some f₂ →
      (f₁.map Entry.version).Nodup ∧ (f₂.map Entry.version).Nodup ∧
      (f₁.map renderKey).Perm (f₂.map renderKey)) :
    (canonSorted (sortedDuplicates d₁)).map
        (fun p => (p.1, p.2.map (formatInstance false))) =
      (canonSorted (sortedDuplicates d₂)).map
        (fun p => (p.1, p.2.map (formatInstance false))) := by
  have hkeys : (d₁.map Prod.fst).insertionSort (· ≤ ·) =
      (d₂.map Prod.fst).insertionSort (· ≤ ·) :=
    List.eq_of_perm_of_sorted
      (((List.perm_insertionSort _ _).trans hkp).trans
        (List.perm_insertionSort _ _).symm)
      (List.sorted_insertionSort _ _) (List.sorted_insertionSort _ _)
  rw [sortedDuplicates, sortedDuplicates, canonSorted, canonSorted,
    List.map_map, List.map_map, List.map_map, List.map_map, ← hkeys]
  apply List.map_congr_left
  intro name hname
  have hmem₁ : name ∈ d₁.map Prod.fst :=
    (List.perm_insertionSort _ _).mem_iff.mp hname
  have hmem₂ : name ∈ d₂.map Prod.fst := hkp.mem_iff.mp hmem₁
  obtain ⟨f₁, hf₁⟩ := (mem_keys_iff_alookup hnd₁ name).mp hmem₁
  obtain ⟨f₂, hf₂⟩ := (mem_keys_iff_alookup hnd₂ name).mp hmem₂
  obtain ⟨hn₁, hn₂, hperm⟩ := hrel name f₁ f₂ hf₁ hf₂
  simp only [Function.comp, hf₁, hf₂, Option.getD_some, Prod.mk.injEq,
    true_and]
  have hc : ∀ f : List Entry,
      ((sortInstances f).map canonEntry).map (formatInstance false) =
        ((sortInstances f).map renderKey).map instStr := by
    intro f
    rw [List.map_map, List.map_map]
    apply List.map_congr_left
    intro e _
    exact formatInstance_canon e
  rw [hc f₁, hc f₂, sortInstances_renderKey_eq hn₁ hn₂ hperm]

set_option maxRecDepth 200000 in
/-- **C9 counterexample**: reshuffling the module order changes the
verbose-mode formatted diagnostics even after canonicalizing issuer-path
order: the first-seen instance for `a@1.0.0` records a different `issuer`
field, and verbose mode prints it (`from <issuer>`). -/
theorem formatted_output_order_dependent :
    (emitStructured { verbose := true } gcp9 "/ctx" [m9a, m9b, m9c]).toOption.map
        (fun s => formatDiags true true (canonSorted s)) ≠
      (emitStructured { verbose := true } gcp9 "/ctx" [m9b, m9a, m9c]).toOption.map
        (fun s => formatDiags true true (canonSorted s)) := by
  decide

/-- **C9 (amended)**: over permuted module lists, whenever the exclusion
predicate (if any) depends only on the package name and version, the pass
produces structurally identical reports up to the two order-dependent
per-instance fields the non-verbose renderer ignores: after sorting each
instance's issuer paths, the non-verbose formatted diagnostics of the two
runs are identical (same package-name order, same instance order, same
message text). Verbose mode breaks this (see the counterexample): the
`issuer` field of a first-seen instance is order-dependent. -/
theorem determinism_up_to_issuer_order (opts : Options) (gcp : Gcp)
    (context : String) {mods₁ mods₂ : List WModule} (hp : mods₁.Perm mods₂)
    (hex : ∀ f, opts.exclude = some f → ∀ (n : String) (a b : Entry),
      a.version = b.version → f n a = f n b)
    (s₁ : List (String × List Entry))
    (h₁ : emitStructured opts gcp context mods₁ = Except.ok s₁) :
    ∃ s₂, emitStructured opts gcp context mods₂ = Except.ok s₂ ∧
      formatDiags false opts.showHelp (canonSorted s₁) =
        formatDiags false opts.showHelp (canonSorted s₂) := by
  rw [emitStructured] at h₁
  match hc₁ : classify opts.strict opts.exclude
      (aggregateModules gcp context mods₁) with
  | Except.error e =>
    simp only [hc₁] at h₁
    exact Except.noConfusion h₁
  | Except.ok d₁ =>
    simp only [hc₁] at h₁
    have hs₁ : s₁ = sortedDuplicates d₁ := (Except.ok.inj h₁).symm
    obtain ⟨d₂, hc₂, hnd₁, hnd₂, hkp, hrel⟩ :=
      classify_agg_invariant opts.strict opts.exclude hex gcp context hp
        d₁ hc₁
    refine ⟨sortedDuplicates d₂, ?_, ?_⟩
    · rw [emitStructured]
      simp only [hc₂]
    · subst hs₁
      exact formatDiags_congr false opts.showHelp _ _
        (sortedDuplicates_render_eq d₁ d₂ hnd₁ hnd₂ hkp hrel)

set_option maxRecDepth 200000 in
/-- **C9 witness**: the amended theorem applied to the counterexample's
module set under the default (non-verbose) options: the two orderings'
canonicalized non-verbose reports agree. -/
theorem determinism_up_to_issuer_order_witness :
    ∃ s₂, emitStructured {} gcp9 "/ctx" [m9b, m9a, m9c] = Except.ok s₂ ∧
      formatDiags false ({} : Options).showHelp
          (canonSorted ((emitStructured {} gcp9 "/ctx"
            [m9a, m9b, m9c]).toOption.getD [])) =
        formatDiags false ({} : Options).showHelp (canonSorted s₂) :=
  determinism_up_to_issuer_order {} gcp9 "/ctx"
    (List.Perm.swap m9b m9a [m9c]) (fun f hf => Option.noConfusion hf)
    ((emitStructured {} gcp9 "/ctx" [m9a, m9b, m9c]).toOption.getD [])
    rfl
